import Mathlib

/-!
Verification of the LALR(1) parser-generator core of `pomelo`
(`pomelo-impl/src/parser/mod.rs`), as a shallow embedding in Lean 4.

Symbols, rules and states are identified by their integer ids/indices
(`Rc` pointer equality on interned symbols and rules corresponds to id
equality, since the generator interns each name once and each rule has a
unique dense index).  Machine integers (`i32`, `usize`) are modelled as
`Int`/`Nat`; the quantities involved (symbol counts, action counts) never
approach overflow in the source, which indexes `Vec`s with them.
-/

namespace Pomelo

/-! ### Precedence and actions (parser/mod.rs, `Precedence`, `EAction`, `Action`) -/

inductive Associativity where
  | Left
  | Right
  | None
deriving DecidableEq, Repr

/-- `struct Precedence(i32, Associativity)`: field 0 is `level`, field 1 is `assoc`. -/
structure Precedence where
  level : Int
  assoc : Associativity
deriving DecidableEq, Repr

/-- `precedence_cmp` (mod.rs:26-37): compare levels; on equal levels the
*first* argument's associativity decides: Left ⇒ Less, Right ⇒ Greater,
None ⇒ Equal. -/
def precedence_cmp (a b : Precedence) : Ordering :=
  match compare a.level b.level with
  | Ordering.eq =>
    match a.assoc with
    | Associativity.Left => Ordering.lt
    | Associativity.Right => Ordering.gt
    | Associativity.None => Ordering.eq
  | o => o

/-- `enum EAction` (mod.rs:157-168).  States and rules are represented by
their numbers/indices. -/
inductive EAction where
  | Shift (st : Nat)
  | Accept
  | Reduce (r : Nat)
  | Error
  | SSConflict (st : Nat)
  | SRConflict (r : Nat)
  | RRConflict (r : Nat)
  | SHResolved (st : Nat)
  | RDResolved (r : Nat)
  | NotUsed
deriving DecidableEq, Repr

/-- `struct Action` (mod.rs:206-210): look-ahead symbol id plus effect. -/
structure Action where
  sp : Nat
  x : EAction
deriving DecidableEq, Repr

/-- `Lemon::get_precedence` (mod.rs:1428-1434): precedence of an optional
symbol reference, `None` if the reference is absent or the symbol carries
no precedence.  `assocOf` is the `Symbol.assoc` field read off by id. -/
def get_precedence (assocOf : Nat → Option Precedence) (p : Option Nat) : Option Precedence :=
  p.bind assocOf

/-- `Lemon::resolve_conflict` (mod.rs:1092-1144).  `assocOf` gives each
symbol's `assoc` field; `rulePrec` gives each rule's `prec_sym` field.
Returns the rewritten pair `(apx, apy)` and the `err` flag that the caller
adds to `nconflict`. -/
def resolve_conflict (assocOf : Nat → Option Precedence) (rulePrec : Nat → Option Nat)
    (apx apy : Action) : Action × Action × Bool :=
  match apx.x, apy.x with
  | EAction.Shift x, EAction.Shift y =>
    ({ apx with x := EAction.Shift x }, { apy with x := EAction.SSConflict y }, true)
  | EAction.Shift x, EAction.Reduce y =>
    let precx := assocOf apx.sp
    let precy := get_precedence assocOf (rulePrec y)
    match precx, precy with
    | some px, some py =>
      match precedence_cmp px py with
      | Ordering.lt =>
        ({ apx with x := EAction.SHResolved x }, { apy with x := EAction.Reduce y }, false)
      | Ordering.eq =>
        ({ apx with x := EAction.Error }, { apy with x := EAction.Reduce y }, false)
      | Ordering.gt =>
        ({ apx with x := EAction.Shift x }, { apy with x := EAction.RDResolved y }, false)
    | _, _ =>
      ({ apx with x := EAction.Shift x }, { apy with x := EAction.SRConflict y }, true)
  | EAction.Reduce x, EAction.Reduce y =>
    let precx := get_precedence assocOf (rulePrec x)
    let precy := get_precedence assocOf (rulePrec y)
    match precx, precy with
    | some px, some py =>
      match precedence_cmp px py with
      | Ordering.lt =>
        ({ apx with x := EAction.RDResolved x }, { apy with x := EAction.Reduce y }, false)
      | Ordering.eq =>
        ({ apx with x := EAction.Reduce x }, { apy with x := EAction.RRConflict y }, true)
      | Ordering.gt =>
        ({ apx with x := EAction.Reduce x }, { apy with x := EAction.RDResolved y }, false)
    | _, _ =>
      ({ apx with x := EAction.Reduce x }, { apy with x := EAction.RRConflict y }, true)
  | _, _ => (apx, apy, false)

/-! ### Symbol kinds and `Lemon::prepare` (mod.rs:630-652, symbol_cmp mod.rs:100-111) -/

/-- `enum SymbolType` (mod.rs:68-76), keeping only what `prepare` and the
FIRST/λ analysis read: the discriminant and, for `MultiTerminal`, the ids
of the constituent symbols. -/
inductive SymbolType where
  | Terminal
  | NonTerminal
  | MultiTerminal (sub_sym : List Nat)
deriving DecidableEq, Repr

/-- `symbol_ord` inside `symbol_cmp` (mod.rs:101-107). -/
def symbol_ord : SymbolType → Int
  | SymbolType.Terminal => 0
  | SymbolType.NonTerminal => 1
  | SymbolType.MultiTerminal _ => 2

/-- `symbol_cmp` (mod.rs:100-111): symbols compare by kind only. -/
def symbol_cmp (a b : SymbolType) : Ordering :=
  compare (symbol_ord a) (symbol_ord b)

/-- The order relation induced by `symbol_cmp`, as used by the stable
`sort_by`. -/
def symbol_le (a b : SymbolType) : Prop :=
  symbol_cmp a b ≠ Ordering.gt

instance : DecidableRel symbol_le := fun a b => by
  unfold symbol_le; infer_instance

/-- `self.symbols[1..].sort_by(symbol_cmp)` (mod.rs:632): `$` stays at
index 0, the rest is stably sorted by kind.  Rust's stable slice sort is
modelled by a stable insertion sort over the same comparator. -/
def prepare_sorted (symbols : List SymbolType) : List SymbolType :=
  symbols.take 1 ++ List.insertionSort symbol_le (symbols.drop 1)

/-- The index-assignment loop of `prepare` (mod.rs:634-647): walk the
sorted symbols with their positions; a Terminal updates `nterminal`, a
NonTerminal updates `nsymbol`, a MultiTerminal updates neither. -/
def count_pass : List SymbolType → Nat → Nat → Nat → Nat × Nat
  | [], _, nterminal, nsymbol => (nterminal, nsymbol)
  | s :: rest, i, nterminal, nsymbol =>
    match s with
    | SymbolType.Terminal => count_pass rest (i + 1) i nsymbol
    | SymbolType.NonTerminal => count_pass rest (i + 1) nterminal i
    | SymbolType.MultiTerminal _ => count_pass rest (i + 1) nterminal nsymbol

/-- `Lemon::prepare`'s resulting `(nterminal, nsymbol)` (mod.rs:630-647):
both counters start at 0, the loop runs over the sorted symbols, and only
`nterminal` is incremented afterwards (mod.rs:647). -/
def prepare_counts (symbols : List SymbolType) : Nat × Nat :=
  let p := count_pass (prepare_sorted symbols) 0 0 0
  (p.1 + 1, p.2)

/-- Highest position (starting at `i`) of an element satisfying `p`;
`acc` is the best position seen so far. -/
def last_index_where (p : SymbolType → Bool) : List SymbolType → Nat → Option Nat → Option Nat
  | [], _, acc => acc
  | s :: rest, i, acc => last_index_where p rest (i + 1) (if p s then some i else acc)

def is_terminal : SymbolType → Bool
  | SymbolType.Terminal => true
  | _ => false

def is_non_terminal : SymbolType → Bool
  | SymbolType.NonTerminal => true
  | _ => false

def is_non_multi : SymbolType → Bool
  | SymbolType.MultiTerminal _ => false
  | _ => true

/-! ### The symbol table: `Lemon::symbol_new` (mod.rs:1549-1582) and the
`Decl::Fallback` branch of `parse_one_decl` (mod.rs:1677-1694) -/

/-- `struct Symbol` (mod.rs:79-89), keeping the fields these claims read.
`fallback` holds the id (list position) of the fallback symbol. -/
structure Symbol where
  name : String
  typ : SymbolType
  fallback : Option Nat
  assoc : Option Precedence
  use_cnt : Int
deriving DecidableEq, Repr

/-- `enum NewSymbolType` (mod.rs:17-21). -/
inductive NewSymbolType where
  | Terminal
  | NonTerminal
  | MultiTerminal
deriving DecidableEq, Repr

/-- The fresh-symbol construction at the end of `symbol_new`
(mod.rs:1559-1577): `use_cnt` starts at 1, everything else empty. -/
def new_symbol (name : String) (typ : NewSymbolType) : Symbol :=
  { name := name
    typ := match typ with
      | NewSymbolType.Terminal => SymbolType.Terminal
      | NewSymbolType.NonTerminal => SymbolType.NonTerminal
      | NewSymbolType.MultiTerminal => SymbolType.MultiTerminal []
    fallback := none
    assoc := none
    use_cnt := 1 }

/-- The lookup loop of `symbol_new` (mod.rs:1551-1557): first symbol with
this name gets `use_cnt` bumped and its position returned. -/
def symbol_new_find : List Symbol → String → Nat → Option (List Symbol × Nat)
  | [], _, _ => none
  | s :: rest, name, i =>
    if s.name = name then some ({ s with use_cnt := s.use_cnt + 1 } :: rest, i)
    else (symbol_new_find rest name (i + 1)).map (fun p => (s :: p.1, p.2))

/-- `Lemon::symbol_new` (mod.rs:1549-1582): a non-empty name that is
already interned is reused (with `use_cnt` incremented), otherwise a
fresh symbol is appended.  Returns the new table and the symbol's id. -/
def symbol_new (symbols : List Symbol) (name : String) (typ : NewSymbolType) :
    List Symbol × Nat :=
  match (if name.isEmpty = true then none else symbol_new_find symbols name 0) with
  | some p => p
  | none => (symbols ++ [new_symbol name typ], symbols.length)

/-- `is_uppercase` (mod.rs:556-558) on an identifier's text.  The source
unwraps the first character; identifiers are never empty. -/
def is_uppercase (id : String) : Bool :=
  match id.data with
  | [] => false
  | c :: _ => c.isUpper

inductive DeclError where
  | FallbackMustBeToken
  | MoreThanOneFallback
deriving DecidableEq, Repr

/-- The per-source-token loop of the `Decl::Fallback` branch
(mod.rs:1682-1693).  Note mod.rs:1683 re-checks `is_uppercase(&fb)` — the
fallback identifier — instead of the source identifier `id`.
The `none` arm of the `get?` is unreachable: `symbol_new` always returns
a valid position. -/
def fallback_loop (fb : String) (fallback : Nat) :
    List Symbol → Bool → List String → Except DeclError (List Symbol × Bool)
  | symbols, has_fallback, [] => Except.ok (symbols, has_fallback)
  | symbols, _has_fallback, id :: rest =>
    if is_uppercase fb = false then Except.error DeclError.FallbackMustBeToken
    else
      let p := symbol_new symbols id NewSymbolType.Terminal
      match p.1.get? p.2 with
      | none => Except.error DeclError.MoreThanOneFallback
      | some sp =>
        if sp.fallback.isSome then Except.error DeclError.MoreThanOneFallback
        else fallback_loop fb fallback
          (p.1.set p.2 { sp with fallback := some fallback }) true rest

/-- `parse_one_decl`, `Decl::Fallback` branch (mod.rs:1677-1694): check
the fallback ident is uppercase, intern it as a Terminal, then process
each source token.  Takes and returns `(symbols, has_fallback)`. -/
def parse_fallback_decl (symbols : List Symbol) (has_fallback : Bool)
    (fb : String) (ids : List String) : Except DeclError (List Symbol × Bool) :=
  if is_uppercase fb = false then Except.error DeclError.FallbackMustBeToken
  else
    let p := symbol_new symbols fb NewSymbolType.Terminal
    fallback_loop fb p.2 p.1 has_fallback ids

/-- The symbol table right after `new_from_decls` interns `$` and
`error` (mod.rs:568-569). -/
def init_symbols : List Symbol :=
  [{ name := "$", typ := SymbolType.Terminal, fallback := none, assoc := none, use_cnt := 1 },
   { name := "error", typ := SymbolType.NonTerminal, fallback := none, assoc := none,
     use_cnt := 1 }]

/-- No two symbols share the same non-empty name. -/
def NamesOk (symbols : List Symbol) : Prop :=
  (symbols.map (fun s => s.name)).Pairwise (fun a b => a ≠ b ∨ a.isEmpty = true)

/-! ### `Lemon::build` / `prepare` start-symbol defaulting (mod.rs:607-652) -/

/-- A declaration, projected onto the two effects C10 is about: only
`Decl::Rule` appends to `self.rules` and only `Decl::StartSymbol` sets
`self.start` (mod.rs:1606-1794); every other declaration kind is `Other`. -/
inductive DeclK where
  | StartSymbol (id : Nat)
  | Rule (lhs : Nat)
  | Other
deriving DecidableEq, Repr

/-- Start/rules state accumulated by `parse_one_decl` over the
declaration list. -/
structure LoaderSt where
  rules : List Nat
  start : Option Nat
deriving DecidableEq, Repr

def load_decl (st : LoaderSt) (d : DeclK) : LoaderSt :=
  match d with
  | DeclK.StartSymbol id => { st with start := some id }
  | DeclK.Rule lhs => { st with rules := st.rules ++ [lhs] }
  | DeclK.Other => st

/-- The start-defaulting step at the end of `prepare` (mod.rs:649-651):
`self.start = Some(self.rules.first().unwrap()...)`.  The `unwrap` of a
missing first rule is a panic, modelled as `none`. -/
def prepare_start (start : Option Nat) (rules : List Nat) : Option Nat :=
  match start with
  | some s => some s
  | none => rules.head?

/-- `build` (mod.rs:607-628) runs `prepare` before any step that can
return an error, so its outcome on the start symbol is decided here:
`none` means the `unwrap` panic in `prepare`. -/
def build_start (decls : List DeclK) : Option Nat :=
  let st := decls.foldl load_decl { rules := [], start := none }
  prepare_start st.start st.rules

/-! ### FIRST/λ analysis: `Lemon::find_first_sets` (mod.rs:702-772) -/

/-- `type RuleSet = BTreeSet<usize>` (mod.rs:15): sets of terminal
indices. -/
abbrev RuleSet := Finset Nat

/-- A rule as the FIRST/λ analysis reads it: LHS symbol id and RHS symbol
ids (aliases and code are irrelevant here). -/
structure GRule where
  lhs : Nat
  rhs : List Nat
deriving DecidableEq, Repr

/-- The grammar after `prepare`: symbols identified with their indices
(position in `kinds`), plus the rule list. -/
structure Grammar where
  kinds : List SymbolType
  rules : List GRule
deriving DecidableEq, Repr

def kindOf (g : Grammar) (x : Nat) : SymbolType :=
  g.kinds.getD x SymbolType.Terminal

/-- The `lambda` field of a nonterminal, stored per symbol id. -/
def lambdaOf (lam : List Bool) (x : Nat) : Bool :=
  lam.getD x false

/-- `Symbol::is_lambda` (mod.rs:92-97): only NonTerminals can be λ. -/
def is_lambda (g : Grammar) (lam : List Bool) (x : Nat) : Bool :=
  match kindOf g x with
  | SymbolType.NonTerminal => lambdaOf lam x
  | _ => false

/-- The `first_set` field of a nonterminal, stored per symbol id. -/
def firsts_of (fs : List RuleSet) (x : Nat) : RuleSet :=
  fs.getD x ∅

/-- One rule of the λ pass (mod.rs:705-727): skip if the LHS is already
λ; if every RHS symbol is λ (vacuously for an empty RHS), set the LHS λ
and record progress. -/
def lambda_step (g : Grammar) (st : List Bool × Bool) (r : GRule) : List Bool × Bool :=
  if is_lambda g st.1 r.lhs = true then st
  else if r.rhs.all (fun x => is_lambda g st.1 x) = true then (st.1.set r.lhs true, true)
  else st

/-- One iteration of the λ fixed-point loop over all rules. -/
def lambda_pass (g : Grammar) (lam : List Bool) : List Bool × Bool :=
  g.rules.foldl (lambda_step g) (lam, false)

/-- The λ `loop { … if !progress break }` (mod.rs:703-729), with fuel;
`none` models non-termination, which monotonicity rules out for
sufficient fuel. -/
def lambda_loop (g : Grammar) : Nat → List Bool → Option (List Bool)
  | 0, _ => none
  | fuel + 1, lam =>
    let p := lambda_pass g lam
    if p.2 = true then lambda_loop g fuel p.1 else some p.1

/-- The RHS walk of one rule in the FIRST pass (mod.rs:737-768):
a self-reference is skipped without merging (continuing only if λ);
a Terminal contributes its index and stops; a MultiTerminal contributes
its children's indices and stops; a NonTerminal merges its FIRST set and
stops unless it is λ.  All merging happens only when the LHS `s1` is a
NonTerminal (the `if let` at mod.rs:747); progress records whether any
merged element was new. -/
def first_rule_walk (g : Grammar) (lam : List Bool) (s1 : Nat) :
    List RuleSet → List Nat → List RuleSet × Bool
  | fs, [] => (fs, false)
  | fs, x :: rest =>
    if x = s1 then
      if is_lambda g lam s1 = true then first_rule_walk g lam s1 fs rest
      else (fs, false)
    else
      match kindOf g s1 with
      | SymbolType.NonTerminal =>
        match kindOf g x with
        | SymbolType.Terminal =>
          (fs.set s1 (insert x (firsts_of fs s1)), decide (x ∉ firsts_of fs s1))
        | SymbolType.MultiTerminal sub_sym =>
          (fs.set s1 (firsts_of fs s1 ∪ sub_sym.toFinset),
           decide (¬ sub_sym.toFinset ⊆ firsts_of fs s1))
        | SymbolType.NonTerminal =>
          let f2 := firsts_of fs x
          let prog1 := decide (¬ f2 ⊆ firsts_of fs s1)
          let fs1 := fs.set s1 (firsts_of fs s1 ∪ f2)
          if lambdaOf lam x = true then
            let p := first_rule_walk g lam s1 fs1 rest
            (p.1, prog1 || p.2)
          else (fs1, prog1)
      | _ => first_rule_walk g lam s1 fs rest

/-- One rule of the FIRST pass: walk its RHS, accumulating progress. -/
def first_step (g : Grammar) (lam : List Bool) (st : List RuleSet × Bool) (r : GRule) :
    List RuleSet × Bool :=
  let p := first_rule_walk g lam r.lhs st.1 r.rhs
  (p.1, st.2 || p.2)

/-- One iteration of the FIRST fixed-point loop over all rules
(mod.rs:731-771). -/
def first_pass (g : Grammar) (lam : List Bool) (fs : List RuleSet) : List RuleSet × Bool :=
  g.rules.foldl (first_step g lam) (fs, false)

def first_loop (g : Grammar) (lam : List Bool) : Nat → List RuleSet → Option (List RuleSet)
  | 0, _ => none
  | fuel + 1, fs =>
    let p := first_pass g lam fs
    if p.2 = true then first_loop g lam fuel p.1 else some p.1

/-- `Lemon::find_first_sets` (mod.rs:702-772): the λ fixed point followed
by the FIRST fixed point, starting from all-false λ flags and all-empty
FIRST sets (as `symbol_new` initializes them, mod.rs:1561-1565). -/
def find_first_sets (g : Grammar) (fuel : Nat) : Option (List Bool × List RuleSet) :=
  match lambda_loop g fuel (List.replicate g.kinds.length false) with
  | none => none
  | some lam =>
    match first_loop g lam fuel (List.replicate g.kinds.length ∅) with
    | none => none
    | some fs => some (lam, fs)

/-- The FIRST-set contribution of a rule's RHS prescribed by the claim:
`FIRST(X1)`, plus `FIRST(X2)` if `X1` is λ, and so on up to and including
the first non-λ RHS symbol; a Terminal contributes its own index and a
MultiTerminal its children's indices. -/
def spec_first_contrib (g : Grammar) (lam : List Bool) (fs : List RuleSet) :
    List Nat → RuleSet
  | [] => ∅
  | x :: rest =>
    match kindOf g x with
    | SymbolType.Terminal => {x}
    | SymbolType.MultiTerminal sub_sym => sub_sym.toFinset
    | SymbolType.NonTerminal =>
      firsts_of fs x ∪
        (if lambdaOf lam x = true then spec_first_contrib g lam fs rest else ∅)

/-! ### Table compression: `Lemon::compress_tables` (mod.rs:1153-1245) -/

/-- The inner counting loop over `stp.ap[iap + 1..]` (mod.rs:1178-1193):
count later occurrences of `Reduce(r)`, skipping any occurrence equal to
the current best rule `rbest` (a skip that never changes the count, since
occurrences of `rbest` are not occurrences of `r ≠ rbest`). -/
def count_reduces (rbest : Option Nat) (r : Nat) : List Action → Nat
  | [] => 0
  | a2 :: rest =>
    match a2.x with
    | EAction.Reduce r2 =>
      if (match rbest with | some rb => decide (r2 = rb) | none => false) = true then
        count_reduces rbest r rest
      else if r2 = r then count_reduces rbest r rest + 1
      else count_reduces rbest r rest
    | _ => count_reduces rbest r rest

/-- The per-state scan for the best default reduction (mod.rs:1158-1201):
walk the actions tracking `(nbest, rbest, uses_wildcard)`.  A Shift whose
lookahead is the wildcard sets `uses_wildcard` (when a wildcard exists);
a Reduce on a non-start rule different from the current best is counted
from its position to the end and taken if strictly better.  The source
matches on `(&ap.x, &self.wildcard)`; matching on `ap.x` first and on the
wildcard inside the Shift arm is the same dispatch. -/
def scan_best (wildcard : Option Nat) (lhs_start : Nat → Bool) :
    List Action → Nat → Option Nat → Bool → Nat × Option Nat × Bool
  | [], nbest, rbest, uses_wildcard => (nbest, rbest, uses_wildcard)
  | a :: rest, nbest, rbest, uses_wildcard =>
    match a.x with
    | EAction.Shift _ =>
      let uw := match wildcard with
        | some w => uses_wildcard || decide (a.sp = w)
        | none => uses_wildcard
      scan_best wildcard lhs_start rest nbest rbest uw
    | EAction.Reduce r =>
      if lhs_start r = true then scan_best wildcard lhs_start rest nbest rbest uses_wildcard
      else if rbest = some r then scan_best wildcard lhs_start rest nbest rbest uses_wildcard
      else
        let n := 1 + count_reduces rbest r rest
        if n > nbest then scan_best wildcard lhs_start rest n (some r) uses_wildcard
        else scan_best wildcard lhs_start rest nbest rbest uses_wildcard
    | _ => scan_best wildcard lhs_start rest nbest rbest uses_wildcard

/-- The `apbest` search (mod.rs:1212-1225): split the action list at the
first `Reduce(r)`. -/
def split_first_reduce (r : Nat) : List Action → Option (List Action × Action × List Action)
  | [] => none
  | a :: rest =>
    if a.x = EAction.Reduce r then some ([], a, rest)
    else (split_first_reduce r rest).map (fun p => (a :: p.1, p.2.1, p.2.2))

/-- The `NotUsed` re-tagging of later same-rule reduces (mod.rs:1228-1240). -/
def mark_not_used (r : Nat) (a2 : Action) : Action :=
  match a2.x with
  | EAction.Reduce r2 => if r2 = r then { a2 with x := EAction.NotUsed } else a2
  | _ => a2

/-- The effect ranking of `eaction_cmp` (mod.rs:170-203):
Shift < Accept < Reduce < everything else. -/
def eaction_rank : EAction → Nat
  | EAction.Shift _ => 0
  | EAction.Accept => 1
  | EAction.Reduce _ => 2
  | _ => 3

/-- The secondary key of `eaction_cmp`: target state number for shifts,
rule index for reduces. -/
def eaction_sub : EAction → Nat
  | EAction.Shift st => st
  | EAction.Reduce r => r
  | _ => 0

/-- The order of `action_cmp` (mod.rs:212-225): lookahead symbol index,
then effect rank, then the secondary key.  The source's final tiebreak
compares the two `Action`s' heap addresses, which no two runs share; it
is modelled by the stability of the sort. -/
def action_le (a b : Action) : Bool :=
  decide (a.sp < b.sp) ||
    (decide (a.sp = b.sp) &&
      (decide (eaction_rank a.x < eaction_rank b.x) ||
        (decide (eaction_rank a.x = eaction_rank b.x) &&
          decide (eaction_sub a.x ≤ eaction_sub b.x))))

/-- `stp.ap.sort_by(action_cmp)`: Rust's stable sort, modelled by a
stable insertion sort over the same key. -/
def sort_actions (l : List Action) : List Action :=
  List.insertionSort (fun a b => action_le a b = true) l

/-- `Lemon::compress_tables`, per state (mod.rs:1156-1244): find the best
default reduction; if none qualifies or the wildcard occurs among the
shift lookaheads, `continue` leaves the state untouched (the re-sort at
mod.rs:1243 is skipped by the `continue` as well); otherwise rebrand the
first `Reduce(rbest)` with the `{default}` symbol `def_sym`, mark later
`Reduce(rbest)` actions `NotUsed`, and re-sort.  The two `none` arms are
unreachable: `nbest ≥ 1` forces `rbest` to be `Some` (the `unwrap` at
mod.rs:1208) and `rbest` came from a `Reduce` in the list. -/
def compress_state (wildcard : Option Nat) (lhs_start : Nat → Bool) (def_sym : Nat)
    (ap : List Action) : List Action :=
  let s := scan_best wildcard lhs_start ap 0 none false
  if s.1 < 1 ∨ s.2.2 = true then ap
  else
    match s.2.1 with
    | none => ap
    | some rbest =>
      match split_first_reduce rbest ap with
      | none => sort_actions ap
      | some (pre, apbest, post) =>
        sort_actions (pre ++ { apbest with sp := def_sym } :: post.map (mark_not_used rbest))

/-- Claim-side count: number of `Reduce(r)` actions in a state. -/
def reduce_count : List Action → Nat → Nat
  | [], _ => 0
  | a :: rest, r => (if a.x = EAction.Reduce r then 1 else 0) + reduce_count rest r

/-- Claim-side eligibility: `r` has a reduce action in the state and is
not a start-LHS rule. -/
def eligible (lhs_start : Nat → Bool) (ap : List Action) (r : Nat) : Prop :=
  (∃ a ∈ ap, a.x = EAction.Reduce r) ∧ lhs_start r = false

/-- Claim-side wildcard test: some Shift action's lookahead is the
wildcard token. -/
def wildcard_in_shifts (wildcard : Option Nat) : List Action → Bool
  | [] => false
  | a :: rest =>
    (match a.x, wildcard with
      | EAction.Shift _, some w => decide (a.sp = w)
      | _, _ => false) || wildcard_in_shifts wildcard rest

/-! ### The packed action table: `ActTab` (mod.rs:351-526) and its
emission (mod.rs:2050-2069) -/

/-- `struct LookaheadAction` (mod.rs:351-355). -/
structure LookaheadAction where
  lookahead : Nat
  action : Nat
deriving DecidableEq, Repr

/-- `ActTab::a_action` (mod.rs:378-381): the `yy_action[]` table under
construction; `none` is an unused slot. -/
abbrev ActTab := List (Option LookaheadAction)

/-- Slot read.  All scans below treat an out-of-range index exactly like
an empty slot, as the source's explicit bound checks do. -/
def slotAtN : ActTab → Nat → Option LookaheadAction
  | [], _ => none
  | s :: _, 0 => s
  | _ :: t, k + 1 => slotAtN t k

/-- Slot read at a possibly negative index (`k < 0` is a miss, as in the
source's `k < 0` checks). -/
def slotAt (tab : ActTab) (k : Int) : Option LookaheadAction :=
  if k < 0 then none else slotAtN tab k.toNat

/-- Write `some v` at index `k`, growing the table with `none`s as the
`resize` at mod.rs:493-495 does. -/
def writeSlot : ActTab → Nat → LookaheadAction → ActTab
  | [], 0, v => [some v]
  | [], k + 1, v => none :: writeSlot [] k v
  | _ :: t, 0, v => some v :: t
  | s :: t, k + 1, v => s :: writeSlot t k v

/-- The entry-matching loop of the reuse scan (mod.rs:421-431): every row
entry must already sit at `lookahead - min_lookahead + i`. -/
def rowMatchesAt (tab : ActTab) (row : List LookaheadAction) (minLh i : Nat) : Bool :=
  row.all (fun jla => decide (slotAt tab ((jla.lookahead : Int) - minLh + i) = some jla))

/-- The occupied-slot count of mod.rs:435-444: occupied entries `(j, ja)`
with `ja.lookahead = j + min_lookahead - i`; here `j` is the running
index and `d = min_lookahead - i`. -/
def strangerCountAux : ActTab → Int → Int → Nat
  | [], _, _ => 0
  | none :: t, j, d => strangerCountAux t (j + 1) d
  | some ja :: t, j, d =>
    (if (ja.lookahead : Int) = j + d then 1 else 0) + strangerCountAux t (j + 1) d

def strangerCount (tab : ActTab) (minLh i : Nat) : Nat :=
  strangerCountAux tab 0 ((minLh : Int) - i)

/-- The collision check of the fresh scan (mod.rs:469-475). -/
def hasStranger : ActTab → Int → Int → Bool
  | [], _, _ => false
  | none :: t, j, d => hasStranger t (j + 1) d
  | some ja :: t, j, d =>
    decide ((ja.lookahead : Int) = j + d) || hasStranger t (j + 1) d

/-- The reuse scan (mod.rs:410-449): highest occupied `i` holding
`(min_lookahead, min_action)` where every row entry matches and exactly
the row's entries align (`n == a_lookahead.len()`, mod.rs:445). -/
def findReuse (tab : ActTab) (row : List LookaheadAction) (minLh minAct : Nat) : Option Nat :=
  (List.range tab.length).reverse.find? (fun i =>
    match slotAtN tab i with
    | none => false
    | some a =>
      decide (a.lookahead = minLh) && decide (a.action = minAct)
        && rowMatchesAt tab row minLh i
        && decide (strangerCount tab minLh i = row.length))

/-- The fresh scan (mod.rs:460-480): lowest `i < len + max_lookahead`
whose row entries all land on empty slots and which aligns no occupied
stranger; when none qualifies `i` stays at `len` (append,
mod.rs:460). -/
def findFresh (tab : ActTab) (row : List LookaheadAction) (minLh maxLh : Nat) : Nat :=
  match (List.range (tab.length + maxLh)).find? (fun (i : Nat) =>
      row.all (fun jla => (slotAt tab ((jla.lookahead : Int) - minLh + i)).isNone)
        && !hasStranger tab 0 ((minLh : Int) - i)) with
  | some i => i
  | none => tab.length

/-- The insertion loop (mod.rs:491-497): place every entry at
`lookahead + res`. -/
def insertAt (tab : ActTab) (row : List LookaheadAction) (minLh i : Nat) : ActTab :=
  row.foldl
    (fun t jla => writeSlot t ((jla.lookahead : Int) + ((i : Int) - minLh)).toNat jla) tab

/-- `ActTab::insert_action_set` (mod.rs:396-525): the row is the
`a_lookahead[]` transaction, non-empty (assert, mod.rs:397; the `[]` arm
is dead) and sorted by lookahead (mod.rs:399), so `min/max_lookahead` are
the first/last entries.  Returns the updated table and the offset
`i - min_lookahead`. -/
def insert_action_set (tab : ActTab) (row : List LookaheadAction) : ActTab × Int :=
  match row with
  | [] => (tab, 0)
  | first :: _ =>
    let minLh := first.lookahead
    let minAct := first.action
    let maxLh := (row.getLastD first).lookahead
    let i := match findReuse tab row minLh minAct with
      | some i => i
      | none => findFresh tab row minLh maxLh
    (insertAt tab row minLh i, (i : Int) - minLh)

/-- The per-state insertion sequence of `generate_source`
(mod.rs:1971-2009): one `insert_action_set` call per state row, in
order, collecting the returned offsets. -/
def insertAll : ActTab → List (List LookaheadAction) → ActTab × List Int
  | tab, [] => (tab, [])
  | tab, row :: rows =>
    let p := insert_action_set tab row
    let q := insertAll p.1 rows
    (q.1, p.2 :: q.2)

/-- The emitted `YY_ACTION` table (mod.rs:2050-2057): empty slots carry
the error sentinel `n_states + n_rules + 2`. -/
def yy_action_table (tab : ActTab) (errAct : Nat) : List Nat :=
  tab.map (fun ac => match ac with | none => errAct | some a => a.action)

/-- The emitted `YY_LOOKAHEAD` table (mod.rs:2059-2069): empty slots
carry `nsymbol`. -/
def yy_lookahead_table (tab : ActTab) (nsymbol : Nat) : List Nat :=
  tab.map (fun ac => match ac with | none => nsymbol | some a => a.lookahead)

/-- The function contract of `insert_action_set`: a non-empty transaction
sorted (strictly: one action per lookahead) by lookahead. -/
abbrev ValidRow (row : List LookaheadAction) : Prop :=
  row ≠ [] ∧ row.Pairwise (fun x y => x.lookahead < y.lookahead)

/-- Claim-side notion for C6: a row with offset `o` claims slot `k` when
one of its entries both addresses `k` and matches the slot content. -/
def row_claims (tab : ActTab) (row : List LookaheadAction) (o : Int) (k : Int) : Bool :=
  row.any (fun jla =>
    decide ((jla.lookahead : Int) + o = k) && decide (slotAt tab k = some jla))

/-! ### Minor-type assignment and `YYMinorType` emission
(`Lemon::generate_source`, mod.rs:1836-1907) -/

/-- `types.entry(cp).or_insert(next)` with `next = types.len() + 1`
computed beforehand (mod.rs:1871-1877).  The map content is modelled as
an association list in insertion order; type payloads are opaque strings
compared structurally. -/
def types_entry (types : List (String × Nat)) (cp : String) : List (String × Nat) × Nat :=
  match types.find? (fun kv => kv.1 = cp) with
  | some kv => (types, kv.2)
  | none => (types ++ [(cp, types.length + 1)], types.length + 1)

/-- The `dt_num` assignment loop over the symbols' resolved `data_type`s
(mod.rs:1838-1878): `None ⇒ 0`, otherwise the type's tag in the `types`
map, inserting with the next dense tag on first use.  Returns the
per-symbol tags and the final map content. -/
def assign_dt_nums : List (Option String) → List (String × Nat) → List Nat × List (String × Nat)
  | [], types => ([], types)
  | none :: rest, types =>
    let p := assign_dt_nums rest types
    (0 :: p.1, p.2)
  | some cp :: rest, types =>
    let q := types_entry types cp
    let p := assign_dt_nums rest q.1
    (q.2 :: p.1, p.2)

/-- The `YYMinorType` variant list emitted from `types.iter()`
(mod.rs:1895-1898): one token run `YY{v}({k})` per map entry, in the
order the `HashMap` enumerates them.  `std::collections::HashMap`
iteration order is arbitrary (randomized per map instance), so the
enumeration `order` is a parameter constrained only to be a permutation
of the map content. -/
def minor_type_variants (order : List (String × Nat)) : List String :=
  order.map (fun kv => "YY" ++ toString kv.2 ++ "(" ++ kv.1 ++ ")")

end Pomelo

namespace Pomelo

/-! ### C1: shift/reduce conflict resolution -/

/-- C1 (counterexample): with equal precedence levels and `None`
associativity on the shift token, `resolve_conflict` turns only the shift
into `Error`; the reduce action stays `Reduce`, contradicting the claim
that both actions become `Error` on that lookahead. -/
theorem c1_counterexample :
    (resolve_conflict
        (fun n => if n = 1 then some ⟨1, Associativity.None⟩
                  else if n = 2 then some ⟨1, Associativity.Left⟩ else none)
        (fun _ => some 2)
        ⟨1, EAction.Shift 5⟩ ⟨1, EAction.Reduce 0⟩
      = (⟨1, EAction.Error⟩, ⟨1, EAction.Reduce 0⟩, false))
    ∧ (⟨1, EAction.Reduce 0⟩ : Action).x ≠ EAction.Error := by
  constructor
  · rfl
  · decide

/-- C1 (amended): resolving a Shift (apx) against a Reduce (apy) on the
same lookahead compares the shift token's precedence with the precedence
of the rule's `prec_sym`.  When both are present: a lower shift level
keeps the reduce and marks the shift `SHResolved`; a higher shift level
keeps the shift and marks the reduce `RDResolved`; equal levels with Left
associativity keep the reduce; with Right associativity keep the shift;
with None associativity the shift becomes `Error` while the reduce action
is left in place (amendment: the reduce does not become `Error`), not
counted as a conflict.  When either precedence is missing the pair is
left as an unresolved `SRConflict` with the conflict flag set. -/
theorem c1_shift_reduce_resolution
    (assocOf : Nat → Option Precedence) (rulePrec : Nat → Option Nat)
    (spx spy st r : Nat) :
    (((assocOf spx = none ∨ get_precedence assocOf (rulePrec r) = none) →
      resolve_conflict assocOf rulePrec ⟨spx, EAction.Shift st⟩ ⟨spy, EAction.Reduce r⟩
        = (⟨spx, EAction.Shift st⟩, ⟨spy, EAction.SRConflict r⟩, true)))
    ∧ (∀ lx ax ly ay, assocOf spx = some ⟨lx, ax⟩ →
        get_precedence assocOf (rulePrec r) = some ⟨ly, ay⟩ →
      ((lx < ly →
        resolve_conflict assocOf rulePrec ⟨spx, EAction.Shift st⟩ ⟨spy, EAction.Reduce r⟩
          = (⟨spx, EAction.SHResolved st⟩, ⟨spy, EAction.Reduce r⟩, false))
      ∧ (ly < lx →
        resolve_conflict assocOf rulePrec ⟨spx, EAction.Shift st⟩ ⟨spy, EAction.Reduce r⟩
          = (⟨spx, EAction.Shift st⟩, ⟨spy, EAction.RDResolved r⟩, false))
      ∧ (lx = ly → ax = Associativity.Left →
        resolve_conflict assocOf rulePrec ⟨spx, EAction.Shift st⟩ ⟨spy, EAction.Reduce r⟩
          = (⟨spx, EAction.SHResolved st⟩, ⟨spy, EAction.Reduce r⟩, false))
      ∧ (lx = ly → ax = Associativity.Right →
        resolve_conflict assocOf rulePrec ⟨spx, EAction.Shift st⟩ ⟨spy, EAction.Reduce r⟩
          = (⟨spx, EAction.Shift st⟩, ⟨spy, EAction.RDResolved r⟩, false))
      ∧ (lx = ly → ax = Associativity.None →
        resolve_conflict assocOf rulePrec ⟨spx, EAction.Shift st⟩ ⟨spy, EAction.Reduce r⟩
          = (⟨spx, EAction.Error⟩, ⟨spy, EAction.Reduce r⟩, false)))) := by
  constructor
  · intro h
    rcases hx : assocOf spx with _ | px <;>
      rcases hy : get_precedence assocOf (rulePrec r) with _ | py <;>
      simp_all [resolve_conflict]
  · intro lx ax ly ay hx hy
    refine ⟨?_, ?_, ?_, ?_, ?_⟩
    · intro hlt
      have hc : compare lx ly = Ordering.lt := compare_lt_iff_lt.mpr hlt
      simp [resolve_conflict, hx, hy, precedence_cmp, hc]
    · intro hgt
      have hc : compare lx ly = Ordering.gt := compare_gt_iff_gt.mpr hgt
      simp [resolve_conflict, hx, hy, precedence_cmp, hc]
    · intro heq ha
      have hc : compare lx ly = Ordering.eq := compare_eq_iff_eq.mpr heq
      simp [resolve_conflict, hx, hy, precedence_cmp, hc, ha]
    · intro heq ha
      have hc : compare lx ly = Ordering.eq := compare_eq_iff_eq.mpr heq
      simp [resolve_conflict, hx, hy, precedence_cmp, hc, ha]
    · intro heq ha
      have hc : compare lx ly = Ordering.eq := compare_eq_iff_eq.mpr heq
      simp [resolve_conflict, hx, hy, precedence_cmp, hc, ha]

/-! ### C5: `prepare`'s symbol counts -/

theorem last_index_where_acc (p : SymbolType → Bool) :
    ∀ (l : List SymbolType) (i a : Nat),
      last_index_where p l i (some a) = some ((last_index_where p l i none).getD a)
  | [], _, _ => rfl
  | s :: rest, i, a => by
    by_cases hs : p s
    · simp only [last_index_where, hs, if_pos]
      rw [last_index_where_acc p rest (i + 1) i]
      simp
    · simp only [last_index_where, hs, if_neg, Bool.false_eq_true, not_false_iff]
      exact last_index_where_acc p rest (i + 1) a

theorem last_index_where_isSome (p : SymbolType → Bool) :
    ∀ (l : List SymbolType) (i : Nat), (∃ s ∈ l, p s = true) →
      (last_index_where p l i none).isSome
  | [], _, h => by simp at h
  | s :: rest, i, h => by
    by_cases hs : p s
    · simp only [last_index_where, hs, if_pos]
      rw [last_index_where_acc]
      simp
    · simp only [last_index_where, hs, if_neg, Bool.false_eq_true, not_false_iff]
      rcases h with ⟨t, ht, hpt⟩
      rcases List.mem_cons.mp ht with rfl | ht
      · exact absurd hpt hs
      · exact last_index_where_isSome p rest (i + 1) ⟨t, ht, hpt⟩

theorem last_index_where_all_false (p : SymbolType → Bool) :
    ∀ (l : List SymbolType) (i : Nat) (acc : Option Nat), (∀ s ∈ l, p s = false) →
      last_index_where p l i acc = acc
  | [], _, _, _ => rfl
  | s :: rest, i, acc, h => by
    have hs : p s = false := h s (List.mem_cons_self s rest)
    simp only [last_index_where, hs, Bool.false_eq_true, if_neg, not_false_iff]
    exact last_index_where_all_false p rest (i + 1) acc (fun t ht => h t (List.mem_cons_of_mem s ht))

/-- The counter loop computes the last Terminal position (default: the
initial `nterminal`) and the last NonTerminal position (default: the
initial `nsymbol`). -/
theorem count_pass_eq :
    ∀ (l : List SymbolType) (i nt ns : Nat),
      count_pass l i nt ns =
        ((last_index_where is_terminal l i none).getD nt,
         (last_index_where is_non_terminal l i none).getD ns)
  | [], _, _, _ => rfl
  | s :: rest, i, nt, ns => by
    cases s with
    | Terminal =>
      rw [show count_pass (SymbolType.Terminal :: rest) i nt ns
            = count_pass rest (i + 1) i ns from rfl,
        count_pass_eq rest (i + 1) i ns]
      simp only [last_index_where, is_terminal, is_non_terminal, if_true, Bool.false_eq_true,
        if_neg, not_false_iff]
      rw [last_index_where_acc]
      simp
    | NonTerminal =>
      rw [show count_pass (SymbolType.NonTerminal :: rest) i nt ns
            = count_pass rest (i + 1) nt i from rfl,
        count_pass_eq rest (i + 1) nt i]
      simp only [last_index_where, is_terminal, is_non_terminal, if_true, Bool.false_eq_true,
        if_neg, not_false_iff]
      rw [last_index_where_acc]
      simp
    | MultiTerminal sub =>
      rw [show count_pass (SymbolType.MultiTerminal sub :: rest) i nt ns
            = count_pass rest (i + 1) nt ns from rfl,
        count_pass_eq rest (i + 1) nt ns]
      simp [last_index_where, is_terminal, is_non_terminal]

instance : IsTotal SymbolType symbol_le := by
  constructor
  intro a b
  unfold symbol_le symbol_cmp
  rcases lt_trichotomy (symbol_ord a) (symbol_ord b) with h | h | h
  · left
    simp [compare_lt_iff_lt.mpr h]
  · left
    simp [compare_eq_iff_eq.mpr h]
  · right
    simp [compare_lt_iff_lt.mpr h]

instance : IsTrans SymbolType symbol_le := by
  constructor
  intro a b c hab hbc
  unfold symbol_le symbol_cmp at *
  rw [Ne, compare_gt_iff_gt, not_lt] at *
  exact le_trans hab hbc

theorem symbol_le_ord {a b : SymbolType} (h : symbol_le a b) :
    symbol_ord a ≤ symbol_ord b := by
  unfold symbol_le symbol_cmp at h
  rw [Ne, compare_gt_iff_gt, not_lt] at h
  exact h

/-- In a kind-sorted symbol list containing a NonTerminal, the last
non-MultiTerminal position is the last NonTerminal position. -/
theorem last_index_nonmulti_eq_nonterm :
    ∀ (l : List SymbolType) (i : Nat),
      l.Pairwise symbol_le → SymbolType.NonTerminal ∈ l →
      last_index_where is_non_multi l i none = last_index_where is_non_terminal l i none
  | [], _, _, hmem => by simp at hmem
  | s :: rest, i, hsort, hmem => by
    rcases List.pairwise_cons.mp hsort with ⟨hhead, htail⟩
    by_cases hrest : SymbolType.NonTerminal ∈ rest
    · have ih := last_index_nonmulti_eq_nonterm rest (i + 1) htail hrest
      have hsome : (last_index_where is_non_terminal rest (i + 1) none).isSome :=
        last_index_where_isSome _ rest (i + 1) ⟨_, hrest, rfl⟩
      rcases Option.isSome_iff_exists.mp hsome with ⟨j, hj⟩
      cases s with
      | Terminal =>
        simp only [last_index_where, is_non_multi, is_non_terminal, if_true,
          Bool.false_eq_true, if_neg, not_false_iff]
        rw [last_index_where_acc, ih, hj]
        simp
      | NonTerminal =>
        simp only [last_index_where, is_non_multi, is_non_terminal, if_true]
        rw [last_index_where_acc, last_index_where_acc, ih, hj]
      | MultiTerminal sub =>
        simp only [last_index_where, is_non_multi, is_non_terminal,
          Bool.false_eq_true, if_neg, not_false_iff]
        exact ih
    · have hs : s = SymbolType.NonTerminal := by
        rcases List.mem_cons.mp hmem with h | h
        · exact h.symm
        · exact absurd h hrest
      subst hs
      have hall : ∀ t ∈ rest, is_non_multi t = false := by
        intro t ht
        have := symbol_le_ord (hhead t ht)
        cases t with
        | Terminal => simp [symbol_ord] at this
        | NonTerminal => exact absurd ht hrest
        | MultiTerminal sub => rfl
      have hall2 : ∀ t ∈ rest, is_non_terminal t = false := by
        intro t ht
        have h1 := hall t ht
        cases t with
        | Terminal => simp [is_non_multi] at h1
        | NonTerminal => exact absurd ht hrest
        | MultiTerminal sub => rfl
      simp only [last_index_where, is_non_multi, is_non_terminal, if_pos]
      rw [last_index_where_all_false _ _ _ _ hall, last_index_where_all_false _ _ _ _ hall2]

/-- C5 (counterexample): with symbols `[$ (Terminal), error (NonTerminal),
{default} (NonTerminal)]`, `prepare` computes `nsymbol = 2`, the highest
non-MultiTerminal index itself, not that index plus one (which would
be 3). -/
theorem c5_counterexample :
    ¬ ((prepare_counts [SymbolType.Terminal, SymbolType.NonTerminal, SymbolType.NonTerminal]).2
        = (last_index_where is_non_multi
            (prepare_sorted [SymbolType.Terminal, SymbolType.NonTerminal, SymbolType.NonTerminal])
            0 none).getD 0 + 1) := by
  decide

/-- C5 (amended): after `prepare` sorts the symbols (keeping `$` at index
0) by kind Terminal < NonTerminal < MultiTerminal, `nterminal` is the
highest Terminal index plus one, but `nsymbol` is the highest
non-MultiTerminal index itself (amendment: without the "+ 1"; that index
belongs to the last NonTerminal, the appended `{default}` sentinel).
Hypothesis: the first symbol is `$` (a Terminal) and some NonTerminal
exists, as guaranteed by `new_from_decls` (`$`, `error`, `{default}`). -/
theorem c5_prepare_counts (rest : List SymbolType)
    (hnt : SymbolType.NonTerminal ∈ rest) :
    ∃ jt jn,
      last_index_where is_terminal
        (prepare_sorted (SymbolType.Terminal :: rest)) 0 none = some jt
      ∧ last_index_where is_non_multi
          (prepare_sorted (SymbolType.Terminal :: rest)) 0 none = some jn
      ∧ (prepare_counts (SymbolType.Terminal :: rest)).1 = jt + 1
      ∧ (prepare_counts (SymbolType.Terminal :: rest)).2 = jn := by
  have hsorted : (List.insertionSort symbol_le rest).Pairwise symbol_le :=
    List.sorted_insertionSort symbol_le rest
  have hmem : SymbolType.NonTerminal ∈ List.insertionSort symbol_le rest :=
    (List.perm_insertionSort symbol_le rest).mem_iff.mpr hnt
  have hps : prepare_sorted (SymbolType.Terminal :: rest)
      = SymbolType.Terminal :: List.insertionSort symbol_le rest := by
    simp [prepare_sorted]
  have hterm_some : (last_index_where is_terminal
      (prepare_sorted (SymbolType.Terminal :: rest)) 0 none).isSome := by
    rw [hps]
    exact last_index_where_isSome _ _ 0 ⟨SymbolType.Terminal, List.mem_cons_self _ _, rfl⟩
  have hnt_some : (last_index_where is_non_terminal
      (prepare_sorted (SymbolType.Terminal :: rest)) 0 none).isSome := by
    rw [hps]
    exact last_index_where_isSome _ _ 0 ⟨SymbolType.NonTerminal, List.mem_cons_of_mem _ hmem, rfl⟩
  rcases Option.isSome_iff_exists.mp hterm_some with ⟨jt, hjt⟩
  rcases Option.isSome_iff_exists.mp hnt_some with ⟨jn, hjn⟩
  have hmulti_eq : last_index_where is_non_multi
      (prepare_sorted (SymbolType.Terminal :: rest)) 0 none = some jn := by
    rw [hps] at hjn ⊢
    have hjn2 : last_index_where is_non_terminal
        (List.insertionSort symbol_le rest) (0 + 1) none = some jn := by
      simpa [last_index_where, is_non_terminal] using hjn
    simp only [last_index_where, is_non_multi, if_true]
    rw [last_index_where_acc, last_index_nonmulti_eq_nonterm _ (0 + 1) hsorted hmem, hjn2]
    simp
  refine ⟨jt, jn, hjt, hmulti_eq, ?_, ?_⟩
  · simp only [prepare_counts, count_pass_eq, hjt]
    rfl
  · simp only [prepare_counts, count_pass_eq, hjn]
    rfl

/-- C5 (witness): `c5_prepare_counts` at the minimal symbol table
`[$, error, {default}]`. -/
theorem c5_witness :
    (prepare_counts [SymbolType.Terminal, SymbolType.NonTerminal, SymbolType.NonTerminal]).1 = 1
    ∧ (prepare_counts [SymbolType.Terminal, SymbolType.NonTerminal, SymbolType.NonTerminal]).2
        = 2 := by
  rcases c5_prepare_counts [SymbolType.NonTerminal, SymbolType.NonTerminal]
    (List.mem_cons_self _ _) with ⟨jt, jn, hjt, hjn, h1, h2⟩
  have hjt0 : jt = 0 := by
    have : last_index_where is_terminal
        (prepare_sorted [SymbolType.Terminal, SymbolType.NonTerminal, SymbolType.NonTerminal])
        0 none = some 0 := by decide
    rw [this] at hjt
    exact (Option.some_injective _ hjt).symm
  have hjn2 : jn = 2 := by
    have : last_index_where is_non_multi
        (prepare_sorted [SymbolType.Terminal, SymbolType.NonTerminal, SymbolType.NonTerminal])
        0 none = some 2 := by decide
    rw [this] at hjn
    exact (Option.some_injective _ hjn).symm
  rw [h1, h2, hjt0, hjn2]
  exact ⟨rfl, rfl⟩

/-- C1 (witness): the lower-shift-precedence case at a concrete grammar
fragment, via `c1_shift_reduce_resolution`. -/
theorem c1_witness :
    resolve_conflict
        (fun n => if n = 1 then some ⟨1, Associativity.Left⟩
                  else if n = 2 then some ⟨2, Associativity.Left⟩ else none)
        (fun _ => some 2)
        ⟨1, EAction.Shift 5⟩ ⟨1, EAction.Reduce 0⟩
      = (⟨1, EAction.SHResolved 5⟩, ⟨1, EAction.Reduce 0⟩, false) := by
  have h := c1_shift_reduce_resolution
    (fun n => if n = 1 then some ⟨1, Associativity.Left⟩
              else if n = 2 then some ⟨2, Associativity.Left⟩ else none)
    (fun _ => some 2) 1 1 5 0
  exact (h.2 1 Associativity.Left 2 Associativity.Left rfl rfl).1 (by decide)

/-! ### C9: symbol-table deduplication -/

theorem symbol_new_find_none {name : String} :
    ∀ (l : List Symbol) (i : Nat), symbol_new_find l name i = none →
      ∀ s ∈ l, s.name ≠ name
  | [], _, _ => by simp
  | s :: rest, i, h => by
    by_cases hs : s.name = name
    · simp [symbol_new_find, hs] at h
    · intro t ht
      rcases List.mem_cons.mp ht with rfl | ht
      · exact hs
      · rcases hrec : symbol_new_find rest name (i + 1) with _ | p
        · exact symbol_new_find_none rest (i + 1) hrec t ht
        · simp [symbol_new_find, hs, hrec] at h

theorem symbol_new_find_names {name : String} :
    ∀ (l l' : List Symbol) (i j : Nat), symbol_new_find l name i = some (l', j) →
      l'.map (fun s => s.name) = l.map (fun s => s.name)
  | [], _, _, _, h => by simp [symbol_new_find] at h
  | s :: rest, l', i, j, h => by
    by_cases hs : s.name = name
    · simp only [symbol_new_find] at h
      rw [if_pos hs, Option.some_inj] at h
      injection h with h1 h2
      rw [← h1]
      simp
    · rcases hrec : symbol_new_find rest name (i + 1) with _ | ⟨l2, j2⟩
      · simp [symbol_new_find, hs, hrec] at h
      · simp only [symbol_new_find] at h
        rw [if_neg hs, hrec, Option.map_some', Option.some_inj] at h
        injection h with h1 h2
        rw [← h1]
        simp only [List.map_cons]
        rw [symbol_new_find_names rest l2 (i + 1) j2 hrec]

theorem symbol_new_find_split {name : String} :
    ∀ (pre : List Symbol) (s : Symbol) (post : List Symbol) (i : Nat),
      s.name = name → (∀ a ∈ pre, a.name ≠ name) →
      symbol_new_find (pre ++ s :: post) name i
        = some (pre ++ { s with use_cnt := s.use_cnt + 1 } :: post, i + pre.length)
  | [], s, post, i, hname, _ => by
    simp [symbol_new_find, hname]
  | a :: pre, s, post, i, hname, hpre => by
    have ha : a.name ≠ name := hpre a (List.mem_cons_self a pre)
    have ih := symbol_new_find_split pre s post (i + 1) hname
      (fun b hb => hpre b (List.mem_cons_of_mem a hb))
    rw [List.cons_append]
    simp only [symbol_new_find]
    rw [if_neg ha, ih]
    simp only [Option.map_some', Option.some_inj, Prod.mk.injEq, List.cons_append,
      List.length_cons]
    refine ⟨by simp, by omega⟩

theorem names_ok_append (symbols : List Symbol) (x : Symbol)
    (hok : NamesOk symbols)
    (hx : ∀ a ∈ symbols, a.name ≠ x.name ∨ a.name.isEmpty = true) :
    NamesOk (symbols ++ [x]) := by
  unfold NamesOk at *
  rw [List.map_append]
  apply List.pairwise_append.mpr
  refine ⟨hok, by simp, ?_⟩
  intro a ha b hb
  simp only [List.map_cons, List.map_nil, List.mem_singleton] at hb
  subst hb
  rcases List.mem_map.mp ha with ⟨t, ht, rfl⟩
  exact hx t ht

/-- C9: the symbol table never holds two symbols with the same non-empty
name.  (a) `symbol_new` preserves the no-duplicate invariant; (b) called
with a non-empty name that is already interned, it returns the existing
symbol's position and only bumps its `use_cnt`; (c) called with the empty
name — as for each multi-token RHS slot (mod.rs:1742) — it always appends
a fresh anonymous symbol of the requested kind, exempt from
deduplication. -/
theorem c9_symbol_new_dedup :
    (∀ (symbols : List Symbol) (name : String) (typ : NewSymbolType),
      NamesOk symbols → NamesOk (symbol_new symbols name typ).1)
    ∧ (∀ (pre : List Symbol) (s : Symbol) (post : List Symbol) (typ : NewSymbolType),
        s.name.isEmpty = false → (∀ a ∈ pre, a.name ≠ s.name) →
        symbol_new (pre ++ s :: post) s.name typ
          = (pre ++ { s with use_cnt := s.use_cnt + 1 } :: post, pre.length))
    ∧ (∀ (symbols : List Symbol) (typ : NewSymbolType),
        symbol_new symbols "" typ = (symbols ++ [new_symbol "" typ], symbols.length)
        ∧ (new_symbol "" typ).name = "") := by
  refine ⟨?_, ?_, ?_⟩
  · intro symbols name typ hok
    unfold symbol_new
    by_cases hemp : name.isEmpty = true
    · rw [if_pos hemp]
      exact names_ok_append symbols (new_symbol name typ) hok
        (fun a _ => by
          by_cases habe : a.name.isEmpty = true
          · exact Or.inr habe
          · left
            intro hcontra
            rw [hcontra] at habe
            exact habe hemp)
    · rw [if_neg hemp]
      rcases hfind : symbol_new_find symbols name 0 with _ | ⟨l', j⟩
      · show NamesOk (symbols ++ [new_symbol name typ])
        exact names_ok_append symbols (new_symbol name typ) hok
          (fun a ha => Or.inl (symbol_new_find_none symbols 0 hfind a ha))
      · show NamesOk l'
        unfold NamesOk at *
        rw [symbol_new_find_names symbols l' 0 j hfind]
        exact hok
  · intro pre s post typ hemp hpre
    unfold symbol_new
    rw [if_neg (by rw [hemp]; exact Bool.false_ne_true)]
    rw [symbol_new_find_split pre s post 0 rfl hpre]
    simp
  · intro symbols typ
    exact ⟨rfl, rfl⟩

/-- C9 (witness): interning `error` a second time bumps its `use_cnt`
and creates nothing, via `c9_symbol_new_dedup`. -/
theorem c9_witness :
    symbol_new init_symbols "error" NewSymbolType.NonTerminal
      = ([{ name := "$", typ := SymbolType.Terminal, fallback := none, assoc := none,
            use_cnt := 1 },
          { name := "error", typ := SymbolType.NonTerminal, fallback := none, assoc := none,
            use_cnt := 2 }], 1) := by
  have h := c9_symbol_new_dedup.2.1
    [{ name := "$", typ := SymbolType.Terminal, fallback := none, assoc := none, use_cnt := 1 }]
    { name := "error", typ := SymbolType.NonTerminal, fallback := none, assoc := none,
      use_cnt := 1 }
    [] NewSymbolType.NonTerminal (by decide) (by decide)
  exact h

/-! ### C7: the `Decl::Fallback` uppercase check -/

/-- C7 (code bug): `%fallback FB lower;` is accepted even though the
source token `lower` is not a terminal identifier — mod.rs:1683 re-checks
`is_uppercase(&fb)` instead of `is_uppercase(&id)`, an evident copy-paste
slip (its error message and span also refer to `fb`).  The run interns a
fresh Terminal named `lower` (deduplication is by name only, ignoring
case) and gives it the fallback, setting `has_fallback`. -/
theorem c7_failing_input :
    is_uppercase "lower" = false
    ∧ parse_fallback_decl init_symbols false "FB" ["lower"]
        = Except.ok
          ([{ name := "$", typ := SymbolType.Terminal, fallback := none, assoc := none,
              use_cnt := 1 },
            { name := "error", typ := SymbolType.NonTerminal, fallback := none, assoc := none,
              use_cnt := 1 },
            { name := "FB", typ := SymbolType.Terminal, fallback := none, assoc := none,
              use_cnt := 1 },
            { name := "lower", typ := SymbolType.Terminal, fallback := some 2, assoc := none,
              use_cnt := 1 }], true) := by
  constructor
  · rfl
  · rfl

/-- C7 (second-fallback check and has_fallback, at concrete inputs): a
source token that already has a fallback is rejected, and a successful
non-empty declaration sets `has_fallback`. -/
theorem c7_double_fallback :
    (parse_fallback_decl
        (init_symbols ++
          [{ name := "KW", typ := SymbolType.Terminal, fallback := some 0, assoc := none,
             use_cnt := 1 }])
        false "FB" ["KW"]
      = Except.error DeclError.MoreThanOneFallback)
    ∧ (parse_fallback_decl init_symbols false "FB" ["KW"]).isOk = true := by
  constructor
  · rfl
  · rfl

/-! ### C10: `build` panics on an empty grammar -/

/-- C10: with no `Rule` and no `StartSymbol` declaration, `build` reaches
the `unwrap` of `self.rules.first()` in `prepare` (mod.rs:650) with an
empty rule list and panics (modelled as `none`); `prepare` runs before
any step of `build` that returns an error, so no `Err` is produced. -/
theorem c10_build_panics (decls : List DeclK)
    (h : ∀ d ∈ decls, d = DeclK.Other) :
    build_start decls = none := by
  have hfold : decls.foldl load_decl { rules := [], start := none }
      = { rules := [], start := none } := by
    induction decls with
    | nil => rfl
    | cons d rest ih =>
      have hd : d = DeclK.Other := h d (List.mem_cons_self d rest)
      subst hd
      exact ih (fun d hd => h d (List.mem_cons_of_mem _ hd))
  unfold build_start
  rw [hfold]
  rfl

/-- C10 (witness): `c10_build_panics` on a declaration list holding one
non-rule, non-start declaration. -/
theorem c10_witness : build_start [DeclK.Other] = none :=
  c10_build_panics [DeclK.Other] (by decide)

/-! ### C3: FIRST/λ analysis -/

theorem set_getD_self {α : Type} :
    ∀ (l : List α) (i : Nat) (d : α), l.set i (l.getD i d) = l
  | [], _, _ => rfl
  | _ :: _, 0, _ => rfl
  | a :: t, i + 1, d => by
    show a :: t.set i (t.getD i d) = a :: t
    rw [set_getD_self t i d]

theorem getD_set_ne {α : Type} :
    ∀ (l : List α) (i j : Nat) (v d : α), i ≠ j → (l.set i v).getD j d = l.getD j d
  | [], _, _, _, _, _ => rfl
  | _ :: _, 0, 0, _, _, h => absurd rfl h
  | _ :: _, 0, _ + 1, _, _, _ => rfl
  | _ :: _, _ + 1, 0, _, _, _ => rfl
  | a :: t, i + 1, j + 1, v, d, h => by
    show (t.set i v).getD j d = t.getD j d
    exact getD_set_ne t i j v d (fun hc => h (by rw [hc]))

theorem getD_set_true :
    ∀ (l : List Bool) (n : Nat), l.getD n false = true → (l.set n true).getD n false = true
  | [], _, h => h
  | _ :: _, 0, _ => rfl
  | _ :: t, n + 1, h => getD_set_true t n h

theorem lambdaOf_set_true {lam : List Bool} {n A : Nat}
    (h : lambdaOf (lam.set n true) A = true) : A = n ∨ lambdaOf lam A = true := by
  by_cases hA : A = n
  · exact Or.inl hA
  · right
    rw [lambdaOf, getD_set_ne lam n A true false (fun hc => hA hc.symm)] at h
    exact h

/-- λ flags only grow. -/
def lam_le (a b : List Bool) : Prop :=
  ∀ x, lambdaOf a x = true → lambdaOf b x = true

theorem lam_le_refl (a : List Bool) : lam_le a a := fun _ h => h

theorem lam_le_set_true (lam : List Bool) (n : Nat) : lam_le lam (lam.set n true) := by
  intro x hx
  by_cases hxn : x = n
  · subst hxn
    exact getD_set_true lam x hx
  · rw [lambdaOf, getD_set_ne lam n x true false (fun hc => hxn hc.symm)]
    exact hx

theorem is_lambda_nonterm {g : Grammar} {lam : List Bool} {x : Nat}
    (h : kindOf g x = SymbolType.NonTerminal) : is_lambda g lam x = lambdaOf lam x := by
  unfold is_lambda
  rw [h]

theorem is_lambda_term {g : Grammar} {lam : List Bool} {x : Nat}
    (h : kindOf g x = SymbolType.Terminal) : is_lambda g lam x = false := by
  unfold is_lambda
  rw [h]

theorem is_lambda_multi {g : Grammar} {lam : List Bool} {x : Nat} {sub : List Nat}
    (h : kindOf g x = SymbolType.MultiTerminal sub) : is_lambda g lam x = false := by
  unfold is_lambda
  rw [h]

theorem is_lambda_mono {g : Grammar} {a b : List Bool} (hab : lam_le a b) {x : Nat}
    (h : is_lambda g a x = true) : is_lambda g b x = true := by
  rcases hk : kindOf g x with _ | _ | sub
  · rw [is_lambda_term hk] at h
    exact absurd h (by simp)
  · rw [is_lambda_nonterm hk] at h
    rw [is_lambda_nonterm hk]
    exact hab x h
  · rw [is_lambda_multi hk] at h
    exact absurd h (by simp)

/-- Every true λ flag is justified by an all-λ rule. -/
def LamJustified (g : Grammar) (lam : List Bool) : Prop :=
  ∀ A, lambdaOf lam A = true →
    ∃ r ∈ g.rules, r.lhs = A ∧ ∀ x ∈ r.rhs, is_lambda g lam x = true

theorem lambda_step_eq (g : Grammar) (st : List Bool × Bool) (r : GRule) :
    lambda_step g st r = st ∨
      (is_lambda g st.1 r.lhs = false ∧ (∀ x ∈ r.rhs, is_lambda g st.1 x = true) ∧
        lambda_step g st r = (st.1.set r.lhs true, true)) := by
  unfold lambda_step
  split_ifs with h1 h2
  · exact Or.inl rfl
  · refine Or.inr ⟨?_, List.all_eq_true.mp h2, rfl⟩
    simpa using h1
  · exact Or.inl rfl

theorem lam_justified_step (g : Grammar) {st : List Bool × Bool} {r : GRule}
    (hr : r ∈ g.rules) (hj : LamJustified g st.1) :
    LamJustified g (lambda_step g st r).1 := by
  rcases lambda_step_eq g st r with h | ⟨hlhs, hall, h⟩
  · rw [h]; exact hj
  · rw [h]
    intro A hA
    have hle : lam_le st.1 (st.1.set r.lhs true) := lam_le_set_true st.1 r.lhs
    rcases lambdaOf_set_true hA with rfl | hold
    · exact ⟨r, hr, rfl, fun x hx => is_lambda_mono hle (hall x hx)⟩
    · rcases hj A hold with ⟨r2, hr2, hl2, hall2⟩
      exact ⟨r2, hr2, hl2, fun x hx => is_lambda_mono hle (hall2 x hx)⟩

theorem lam_justified_foldl (g : Grammar) :
    ∀ (l : List GRule) (st : List Bool × Bool), (∀ r ∈ l, r ∈ g.rules) →
      LamJustified g st.1 → LamJustified g (l.foldl (lambda_step g) st).1
  | [], _, _, hj => hj
  | r :: rest, st, hl, hj =>
    lam_justified_foldl g rest (lambda_step g st r)
      (fun a ha => hl a (List.mem_cons_of_mem r ha))
      (lam_justified_step g (hl r (List.mem_cons_self r rest)) hj)

theorem foldl_id {α β : Type} (f : β → α → β) :
    ∀ (l : List α) (st : β), (∀ a ∈ l, f st a = st) → l.foldl f st = st
  | [], _, _ => rfl
  | a :: rest, st, h => by
    show (rest.foldl f (f st a)) = st
    rw [h a (List.mem_cons_self a rest)]
    exact foldl_id f rest st (fun b hb => h b (List.mem_cons_of_mem a hb))

theorem lambda_step_snd_false {g : Grammar} {st : List Bool × Bool} {r : GRule}
    (h : (lambda_step g st r).2 = false) : lambda_step g st r = st ∧ st.2 = false := by
  rcases lambda_step_eq g st r with heq | ⟨_, _, heq⟩
  · exact ⟨heq, by rw [heq] at h; exact h⟩
  · rw [heq] at h
    simp at h

theorem lambda_foldl_snd_false {g : Grammar} :
    ∀ (l : List GRule) (st : List Bool × Bool),
      (l.foldl (lambda_step g) st).2 = false →
      (∀ r ∈ l, lambda_step g st r = st) ∧ st.2 = false
  | [], st, h => ⟨by simp, h⟩
  | r :: rest, st, h => by
    have hrec := lambda_foldl_snd_false rest (lambda_step g st r) h
    rcases lambda_step_snd_false hrec.2 with ⟨hid, hst⟩
    refine ⟨?_, hst⟩
    intro a ha
    rcases List.mem_cons.mp ha with rfl | ha
    · exact hid
    · have := hrec.1 a ha
      rw [hid] at this
      exact this

theorem lambda_pass_fix {g : Grammar} {lam : List Bool}
    (h : (lambda_pass g lam).2 = false) :
    (lambda_pass g lam).1 = lam ∧ ∀ r ∈ g.rules, lambda_step g (lam, false) r = (lam, false) := by
  have h2 := lambda_foldl_snd_false g.rules (lam, false) h
  refine ⟨?_, h2.1⟩
  unfold lambda_pass
  rw [foldl_id _ _ _ h2.1]

theorem lambda_loop_some {g : Grammar} :
    ∀ (fuel : Nat) (lam0 lam : List Bool), lambda_loop g fuel lam0 = some lam →
      (LamJustified g lam0 → LamJustified g lam) ∧ (lambda_pass g lam).2 = false
  | 0, _, _, h => by simp [lambda_loop] at h
  | fuel + 1, lam0, lam, h => by
    simp only [lambda_loop] at h
    by_cases hp : (lambda_pass g lam0).2 = true
    · rw [if_pos hp] at h
      have ih := lambda_loop_some fuel (lambda_pass g lam0).1 lam h
      exact ⟨fun hj => ih.1 (lam_justified_foldl g g.rules (lam0, false) (fun _ ha => ha) hj),
        ih.2⟩
    · rw [if_neg hp] at h
      have hp' : (lambda_pass g lam0).2 = false := by simpa using hp
      have hfix := lambda_pass_fix hp'
      have hlam : lam = lam0 := by
        rw [← Option.some_inj.mp h, hfix.1]
      subst hlam
      exact ⟨fun hj => hj, hp'⟩

theorem lambdaOf_replicate (n A : Nat) : lambdaOf (List.replicate n false) A = false := by
  unfold lambdaOf
  induction n generalizing A with
  | zero => cases A <;> rfl
  | succ n ih =>
    cases A with
    | zero => rfl
    | succ A => exact ih A

theorem lam_justified_init (g : Grammar) :
    LamJustified g (List.replicate g.kinds.length false) := by
  intro A hA
  rw [lambdaOf_replicate] at hA
  exact absurd hA (by simp)

theorem lambda_fix_complete {g : Grammar} {lam : List Bool}
    (hfix : (lambda_pass g lam).2 = false) {r : GRule} (hr : r ∈ g.rules)
    (hkind : kindOf g r.lhs = SymbolType.NonTerminal)
    (hno : lambdaOf lam r.lhs = false)
    (hall : ∀ x ∈ r.rhs, is_lambda g lam x = true) : False := by
  have hid := (lambda_pass_fix hfix).2 r hr
  have : lambda_step g (lam, false) r = (lam.set r.lhs true, true) := by
    unfold lambda_step
    rw [if_neg (by rw [is_lambda_nonterm hkind, hno]; simp),
      if_pos (List.all_eq_true.mpr hall)]
  rw [this] at hid
  exact absurd (congrArg Prod.snd hid) (by simp)

theorem first_walk_snd_false {g : Grammar} {lam : List Bool} {s1 : Nat} :
    ∀ (rhs : List Nat) (fs : List RuleSet),
      (first_rule_walk g lam s1 fs rhs).2 = false → (first_rule_walk g lam s1 fs rhs).1 = fs
  | [], _, _ => rfl
  | x :: rest, fs, h => by
    simp only [first_rule_walk] at h ⊢
    by_cases hx : x = s1
    · rw [if_pos hx] at h ⊢
      by_cases hl : is_lambda g lam s1 = true
      · rw [if_pos hl] at h ⊢
        exact first_walk_snd_false rest fs h
      · rw [if_neg hl] at h ⊢
    · rw [if_neg hx] at h ⊢
      rcases hk : kindOf g s1 with _ | _ | sub <;> rw [hk] at h
      · exact first_walk_snd_false rest fs h
      · rcases hk2 : kindOf g x with _ | _ | sub2 <;> rw [hk2] at h
        · have h' : decide (x ∉ firsts_of fs s1) = false := h
          have hmem : x ∈ firsts_of fs s1 := by simpa using h'
          show fs.set s1 (insert x (firsts_of fs s1)) = fs
          rw [Finset.insert_eq_self.mpr hmem]
          exact set_getD_self fs s1 ∅
        · by_cases hl : lambdaOf lam x = true
          · rw [if_pos hl] at h ⊢
            have h' : (decide (¬ firsts_of fs x ⊆ firsts_of fs s1)
                || (first_rule_walk g lam s1
                    (fs.set s1 (firsts_of fs s1 ∪ firsts_of fs x)) rest).2) = false := h
            simp only [Bool.or_eq_false_iff] at h'
            have h1 : firsts_of fs x ⊆ firsts_of fs s1 := by
              have := h'.1
              simpa using this
            have hfs1 : fs.set s1 (firsts_of fs s1 ∪ firsts_of fs x) = fs := by
              rw [Finset.union_eq_left.mpr h1]
              exact set_getD_self fs s1 ∅
            show (first_rule_walk g lam s1
              (fs.set s1 (firsts_of fs s1 ∪ firsts_of fs x)) rest).1 = fs
            rw [hfs1] at h' ⊢
            exact first_walk_snd_false rest fs h'.2
          · rw [if_neg hl] at h ⊢
            have h' : decide (¬ firsts_of fs x ⊆ firsts_of fs s1) = false := h
            have h1 : firsts_of fs x ⊆ firsts_of fs s1 := by simpa using h'
            show fs.set s1 (firsts_of fs s1 ∪ firsts_of fs x) = fs
            rw [Finset.union_eq_left.mpr h1]
            exact set_getD_self fs s1 ∅
        · have h' : decide (¬ sub2.toFinset ⊆ firsts_of fs s1) = false := h
          have h1 : sub2.toFinset ⊆ firsts_of fs s1 := by simpa using h'
          show fs.set s1 (firsts_of fs s1 ∪ sub2.toFinset) = fs
          rw [Finset.union_eq_left.mpr h1]
          exact set_getD_self fs s1 ∅
      · exact first_walk_snd_false rest fs h

theorem first_step_snd_false {g : Grammar} {lam : List Bool} {st : List RuleSet × Bool}
    {r : GRule} (h : (first_step g lam st r).2 = false) :
    first_step g lam st r = st ∧ st.2 = false
      ∧ (first_rule_walk g lam r.lhs st.1 r.rhs).2 = false := by
  unfold first_step at h ⊢
  simp only [Bool.or_eq_false_iff] at h
  have hwalk := first_walk_snd_false r.rhs st.1 h.2
  refine ⟨?_, h.1, h.2⟩
  show ((first_rule_walk g lam r.lhs st.1 r.rhs).1,
    st.2 || (first_rule_walk g lam r.lhs st.1 r.rhs).2) = st
  rw [hwalk, h.2, Bool.or_false]

theorem first_foldl_snd_false {g : Grammar} {lam : List Bool} :
    ∀ (l : List GRule) (st : List RuleSet × Bool),
      (l.foldl (first_step g lam) st).2 = false →
      (∀ r ∈ l, first_step g lam st r = st
        ∧ (first_rule_walk g lam r.lhs st.1 r.rhs).2 = false) ∧ st.2 = false
  | [], st, h => ⟨by simp, h⟩
  | r :: rest, st, h => by
    have hrec := first_foldl_snd_false rest (first_step g lam st r) h
    rcases first_step_snd_false hrec.2 with ⟨hid, hst, hwalk⟩
    refine ⟨?_, hst⟩
    intro a ha
    rcases List.mem_cons.mp ha with rfl | ha
    · exact ⟨hid, hwalk⟩
    · have := hrec.1 a ha
      rw [hid] at this
      exact this

theorem first_loop_some {g : Grammar} {lam : List Bool} :
    ∀ (fuel : Nat) (fs0 fs : List RuleSet), first_loop g lam fuel fs0 = some fs →
      (first_pass g lam fs).2 = false
  | 0, _, _, h => by simp [first_loop] at h
  | fuel + 1, fs0, fs, h => by
    simp only [first_loop] at h
    by_cases hp : (first_pass g lam fs0).2 = true
    · rw [if_pos hp] at h
      exact first_loop_some fuel (first_pass g lam fs0).1 fs h
    · rw [if_neg hp] at h
      have hp' : (first_pass g lam fs0).2 = false := by simpa using hp
      have hfold := first_foldl_snd_false g.rules (fs0, false) hp'
      have hfs : fs = fs0 := by
        rw [← Option.some_inj.mp h]
        show (first_pass g lam fs0).1 = fs0
        unfold first_pass
        rw [foldl_id _ _ _ (fun r hr => (hfold.1 r hr).1)]
      subst hfs
      exact hp'

theorem first_walk_contrib {g : Grammar} {lam : List Bool} {s1 : Nat}
    (hkind : kindOf g s1 = SymbolType.NonTerminal) :
    ∀ (rhs : List Nat) (fs : List RuleSet),
      (first_rule_walk g lam s1 fs rhs).2 = false →
      spec_first_contrib g lam fs rhs ⊆ firsts_of fs s1
  | [], _, _ => by simp [spec_first_contrib]
  | x :: rest, fs, h => by
    simp only [first_rule_walk] at h
    simp only [spec_first_contrib]
    by_cases hx : x = s1
    · rw [if_pos hx] at h
      have hkx : kindOf g x = SymbolType.NonTerminal := by rw [hx]; exact hkind
      rw [hkx]
      rw [is_lambda_nonterm hkind] at h
      show firsts_of fs x ∪
        (if lambdaOf lam x = true then spec_first_contrib g lam fs rest else ∅)
          ⊆ firsts_of fs s1
      rw [hx]
      by_cases hl : lambdaOf lam s1 = true
      · rw [if_pos hl] at h
        rw [if_pos hl]
        exact Finset.union_subset (le_refl _) (first_walk_contrib hkind rest fs h)
      · rw [if_neg hl]
        simp
    · rw [if_neg hx] at h
      rw [hkind] at h
      rcases hk2 : kindOf g x with _ | _ | sub2 <;> rw [hk2] at h
      · have h' : decide (x ∉ firsts_of fs s1) = false := h
        have hmem : x ∈ firsts_of fs s1 := by simpa using h'
        show ({x} : RuleSet) ⊆ firsts_of fs s1
        exact Finset.singleton_subset_iff.mpr hmem
      · by_cases hl : lambdaOf lam x = true
        · rw [if_pos hl] at h
          have h' : (decide (¬ firsts_of fs x ⊆ firsts_of fs s1)
              || (first_rule_walk g lam s1
                  (fs.set s1 (firsts_of fs s1 ∪ firsts_of fs x)) rest).2) = false := h
          simp only [Bool.or_eq_false_iff] at h'
          have h1 : firsts_of fs x ⊆ firsts_of fs s1 := by
            have := h'.1
            simpa using this
          have hfs1 : fs.set s1 (firsts_of fs s1 ∪ firsts_of fs x) = fs := by
            rw [Finset.union_eq_left.mpr h1]
            exact set_getD_self fs s1 ∅
          rw [hfs1] at h'
          show firsts_of fs x ∪
            (if lambdaOf lam x = true then spec_first_contrib g lam fs rest else ∅)
              ⊆ firsts_of fs s1
          rw [if_pos hl]
          exact Finset.union_subset h1 (first_walk_contrib hkind rest fs h'.2)
        · rw [if_neg hl] at h
          have h' : decide (¬ firsts_of fs x ⊆ firsts_of fs s1) = false := h
          have h1 : firsts_of fs x ⊆ firsts_of fs s1 := by simpa using h'
          show firsts_of fs x ∪
            (if lambdaOf lam x = true then spec_first_contrib g lam fs rest else ∅)
              ⊆ firsts_of fs s1
          rw [if_neg hl]
          simpa using h1
      · have h' : decide (¬ sub2.toFinset ⊆ firsts_of fs s1) = false := h
        have h1 : sub2.toFinset ⊆ firsts_of fs s1 := by simpa using h'
        show sub2.toFinset ⊆ firsts_of fs s1
        exact h1

/-- C3: after `find_first_sets` returns, a nonterminal `A` is λ iff some
rule `A → X1…Xk` has every `Xi` λ (an empty RHS counts as all-λ), and for
every rule of a nonterminal `A`, `FIRST(A)` contains `FIRST(X1)`, plus
`FIRST(X2)` if `X1` is λ, and so on up to and including the first non-λ
RHS symbol, terminals and MultiTerminal children contributing their own
indices. -/
theorem c3_first_sets (g : Grammar) (fuel : Nat) (lam : List Bool) (fs : List RuleSet)
    (h : find_first_sets g fuel = some (lam, fs)) :
    (∀ A, kindOf g A = SymbolType.NonTerminal →
      (lambdaOf lam A = true ↔
        ∃ r ∈ g.rules, r.lhs = A ∧ ∀ x ∈ r.rhs, is_lambda g lam x = true))
    ∧ (∀ r ∈ g.rules, kindOf g r.lhs = SymbolType.NonTerminal →
        spec_first_contrib g lam fs r.rhs ⊆ firsts_of fs r.lhs) := by
  unfold find_first_sets at h
  rcases hll : lambda_loop g fuel (List.replicate g.kinds.length false) with _ | lam'
  · rw [hll] at h; simp at h
  · rw [hll] at h
    have hm : (match first_loop g lam' fuel (List.replicate g.kinds.length ∅) with
        | none => none
        | some fs => some (lam', fs)) = some (lam, fs) := h
    rcases hfl : first_loop g lam' fuel (List.replicate g.kinds.length ∅) with _ | fs'
    · rw [hfl] at hm; simp at hm
    · rw [hfl] at hm
      have hpair : (lam', fs') = (lam, fs) := by simpa using hm
      injection hpair with h1 h2
      rw [h1] at hll
      rw [h1, h2] at hfl
      have hlam := lambda_loop_some fuel _ lam hll
      have hjust := hlam.1 (lam_justified_init g)
      constructor
      · intro A hA
        constructor
        · intro htrue
          exact hjust A htrue
        · intro ⟨r, hr, hlhs, hall⟩
          by_cases hfalse : lambdaOf lam A = true
          · exact hfalse
          · exact absurd (lambda_fix_complete hlam.2 hr (hlhs ▸ hA)
              (hlhs ▸ (by simpa using hfalse)) hall) (fun hc => hc)
      · intro r hr hkind
        have hfix := first_loop_some fuel _ fs hfl
        have hfold := first_foldl_snd_false g.rules (fs, false) hfix
        exact first_walk_contrib hkind r.rhs fs ((hfold.1 r hr).2)

/-- C3 (witness): `c3_first_sets` on the grammar `S → ε | T S` over
symbols `$`, `T`, `S` — `S` is λ through its ε-rule and
`FIRST(S) = {T}`. -/
theorem c3_witness :
    (∃ r ∈ (Grammar.mk [SymbolType.Terminal, SymbolType.Terminal, SymbolType.NonTerminal]
        [⟨2, []⟩, ⟨2, [1, 2]⟩]).rules,
      r.lhs = 2 ∧ ∀ x ∈ r.rhs, is_lambda
        (Grammar.mk [SymbolType.Terminal, SymbolType.Terminal, SymbolType.NonTerminal]
          [⟨2, []⟩, ⟨2, [1, 2]⟩]) [false, false, true] x = true)
    ∧ spec_first_contrib
        (Grammar.mk [SymbolType.Terminal, SymbolType.Terminal, SymbolType.NonTerminal]
          [⟨2, []⟩, ⟨2, [1, 2]⟩]) [false, false, true] [∅, ∅, {1}] [1, 2]
        ⊆ firsts_of [∅, ∅, {1}] 2 := by
  have h := c3_first_sets
    (Grammar.mk [SymbolType.Terminal, SymbolType.Terminal, SymbolType.NonTerminal]
      [⟨2, []⟩, ⟨2, [1, 2]⟩]) 5 [false, false, true] [∅, ∅, {1}] (by decide)
  exact ⟨(h.1 2 (by decide)).mp (by decide), h.2 ⟨2, [1, 2]⟩ (by decide) (by decide)⟩

/-! ### C4: default-reduction compression -/

theorem reduce_count_append :
    ∀ (xs ys : List Action) (r : Nat),
      reduce_count (xs ++ ys) r = reduce_count xs r + reduce_count ys r
  | [], _, _ => by simp [reduce_count]
  | a :: xs, ys, r => by
    show (if a.x = EAction.Reduce r then 1 else 0) + reduce_count (xs ++ ys) r
      = ((if a.x = EAction.Reduce r then 1 else 0) + reduce_count xs r) + reduce_count ys r
    rw [reduce_count_append xs ys r]
    omega

theorem reduce_count_pos :
    ∀ (l : List Action) (r : Nat), (∃ a ∈ l, a.x = EAction.Reduce r) → 1 ≤ reduce_count l r
  | [], _, h => by simp at h
  | a :: rest, r, h => by
    simp only [reduce_count]
    rcases h with ⟨b, hb, hbx⟩
    rcases List.mem_cons.mp hb with rfl | hb
    · rw [if_pos hbx]
      omega
    · have := reduce_count_pos rest r ⟨b, hb, hbx⟩
      omega

theorem reduce_count_zero :
    ∀ (l : List Action) (r : Nat), (∀ a ∈ l, a.x ≠ EAction.Reduce r) → reduce_count l r = 0
  | [], _, _ => rfl
  | a :: rest, r, h => by
    simp only [reduce_count]
    rw [if_neg (h a (List.mem_cons_self a rest)),
      reduce_count_zero rest r (fun b hb => h b (List.mem_cons_of_mem a hb))]

theorem count_reduces_cons_reduce {a : Action} {r2 : Nat} (hax : a.x = EAction.Reduce r2)
    (rbest : Option Nat) (r : Nat) (rest : List Action) :
    count_reduces rbest r (a :: rest)
      = if (match rbest with | some rb => decide (r2 = rb) | none => false) = true
          then count_reduces rbest r rest
          else if r2 = r then count_reduces rbest r rest + 1
          else count_reduces rbest r rest := by
  simp only [count_reduces]
  rw [hax]

theorem count_reduces_cons_other {a : Action} (hrd : ∀ r2, a.x ≠ EAction.Reduce r2)
    (rbest : Option Nat) (r : Nat) (rest : List Action) :
    count_reduces rbest r (a :: rest) = count_reduces rbest r rest := by
  rcases hax : a.x with st | _ | r2 | _ | st2 | rr | rr | st2 | rr | _ <;>
    first
      | exact absurd hax (hrd _)
      | simp [count_reduces, hax]

theorem count_reduces_eq :
    ∀ (l : List Action) (rbest : Option Nat) (r : Nat), rbest ≠ some r →
      count_reduces rbest r l = reduce_count l r
  | [], _, _, _ => rfl
  | a :: rest, rbest, r, h => by
    have ih := count_reduces_eq rest rbest r h
    by_cases hrd : ∃ r2, a.x = EAction.Reduce r2
    · rcases hrd with ⟨r2, hax⟩
      rw [count_reduces_cons_reduce hax]
      show _ = (if a.x = EAction.Reduce r then 1 else 0) + reduce_count rest r
      rcases rbest with _ | rb
      · rw [if_neg (by simp)]
        by_cases hr2 : r2 = r
        · rw [if_pos hr2, if_pos (by rw [hax, hr2]), ih]
          omega
        · rw [if_neg hr2, if_neg (by rw [hax]; simp [hr2]), ih]
          omega
      · have hrbr : rb ≠ r := fun hc => h (by rw [hc])
        by_cases h2 : r2 = rb
        · rw [if_pos (by simp [h2]),
            if_neg (by rw [hax]; simp only [EAction.Reduce.injEq]; omega), ih]
          omega
        · rw [if_neg (by simp [h2])]
          by_cases hr2 : r2 = r
          · rw [if_pos hr2, if_pos (by rw [hax, hr2]), ih]
            omega
          · rw [if_neg hr2, if_neg (by rw [hax]; simp [hr2]), ih]
            omega
    · rw [count_reduces_cons_other (fun r2 hc => hrd ⟨r2, hc⟩)]
      show _ = (if a.x = EAction.Reduce r then 1 else 0) + reduce_count rest r
      rw [if_neg (fun hc => hrd ⟨r, hc⟩), ih]
      omega

theorem scan_best_cons_shift (w : Option Nat) (ls : Nat → Bool) {a : Action} {st : Nat}
    (hax : a.x = EAction.Shift st) (l : List Action) (nbest : Nat) (rbest : Option Nat)
    (uw : Bool) :
    scan_best w ls (a :: l) nbest rbest uw
      = scan_best w ls l nbest rbest
          (match w with | some wv => uw || decide (a.sp = wv) | none => uw) := by
  simp only [scan_best]
  rw [hax]

theorem scan_best_cons_reduce (w : Option Nat) (ls : Nat → Bool) {a : Action} {r : Nat}
    (hax : a.x = EAction.Reduce r) (l : List Action) (nbest : Nat) (rbest : Option Nat)
    (uw : Bool) :
    scan_best w ls (a :: l) nbest rbest uw
      = (if ls r = true then scan_best w ls l nbest rbest uw
         else if rbest = some r then scan_best w ls l nbest rbest uw
         else if 1 + count_reduces rbest r l > nbest
           then scan_best w ls l (1 + count_reduces rbest r l) (some r) uw
           else scan_best w ls l nbest rbest uw) := by
  simp only [scan_best]
  rw [hax]

theorem scan_best_cons_other (w : Option Nat) (ls : Nat → Bool) {a : Action}
    (hsh : ∀ st, a.x ≠ EAction.Shift st) (hrd : ∀ r, a.x ≠ EAction.Reduce r)
    (l : List Action) (nbest : Nat) (rbest : Option Nat) (uw : Bool) :
    scan_best w ls (a :: l) nbest rbest uw = scan_best w ls l nbest rbest uw := by
  rcases hax : a.x with st | _ | r | _ | st2 | rr | rr | st2 | rr | _ <;>
    first
      | exact absurd hax (hsh _)
      | exact absurd hax (hrd _)
      | simp [scan_best, hax]

theorem wildcard_in_shifts_cons_other (w : Option Nat) {a : Action}
    (hsh : ∀ st, a.x ≠ EAction.Shift st) (l : List Action) :
    wildcard_in_shifts w (a :: l) = wildcard_in_shifts w l := by
  simp only [wildcard_in_shifts]
  rcases hax : a.x with st | _ | r | _ | st2 | rr | rr | st2 | rr | _ <;>
    rcases w with _ | wv <;>
    first
      | (exact absurd hax (hsh _))
      | simp

theorem wildcard_in_shifts_cons_shift (w : Option Nat) {a : Action} {st : Nat}
    (hax : a.x = EAction.Shift st) (l : List Action) :
    wildcard_in_shifts w (a :: l)
      = ((match w with | some wv => decide (a.sp = wv) | none => false)
          || wildcard_in_shifts w l) := by
  simp only [wildcard_in_shifts]
  rw [hax]
  rcases w with _ | wv <;> rfl

theorem scan_best_uw (w : Option Nat) (ls : Nat → Bool) :
    ∀ (l : List Action) (nbest : Nat) (rbest : Option Nat) (uw : Bool),
      (scan_best w ls l nbest rbest uw).2.2 = (uw || wildcard_in_shifts w l)
  | [], _, _, uw => by simp [scan_best, wildcard_in_shifts]
  | a :: rest, nbest, rbest, uw => by
    have ih := scan_best_uw w ls rest
    by_cases hsh : ∃ st, a.x = EAction.Shift st
    · rcases hsh with ⟨st, hax⟩
      rw [scan_best_cons_shift w ls hax, ih, wildcard_in_shifts_cons_shift w hax]
      rcases w with _ | wv <;> simp [Bool.or_assoc]
    · by_cases hrd : ∃ r, a.x = EAction.Reduce r
      · rcases hrd with ⟨r, hax⟩
        rw [scan_best_cons_reduce w ls hax,
          wildcard_in_shifts_cons_other w (fun st hc => hsh ⟨st, hc⟩) rest]
        split_ifs <;> rw [ih]
      · rw [scan_best_cons_other w ls (fun st hc => hsh ⟨st, hc⟩)
            (fun r hc => hrd ⟨r, hc⟩),
          wildcard_in_shifts_cons_other w (fun st hc => hsh ⟨st, hc⟩) rest, ih]


theorem reduce_count_middle (pre : List Action) (a : Action) (l : List Action) (r : Nat) :
    reduce_count ((pre ++ [a]) ++ l) r
      = reduce_count pre r
          + ((if a.x = EAction.Reduce r then 1 else 0) + reduce_count l r) := by
  rw [reduce_count_append (pre ++ [a]) l r, reduce_count_append pre [a] r]
  have hone : reduce_count [a] r = (if a.x = EAction.Reduce r then 1 else 0) := by
    simp [reduce_count]
  rw [hone]
  omega

/-- Invariant proof for the default-reduction scan: walking the suffix
`l` with the best-so-far over the processed prefix `pre` yields, at the
end, an eligible rule of maximal reduce count (ties broken by first
occurrence). -/
theorem scan_best_spec (w : Option Nat) (ls : Nat → Bool) :
    ∀ (l pre : List Action) (nbest : Nat) (rbest : Option Nat) (uw : Bool),
      (∀ r, rbest = some r → ls r = false ∧ (∃ b ∈ pre, b.x = EAction.Reduce r)
          ∧ nbest = reduce_count (pre ++ l) r) →
      (rbest = none → nbest = 0) →
      (∀ r', ls r' = false → (∃ b ∈ pre, b.x = EAction.Reduce r') →
          reduce_count (pre ++ l) r' ≤ nbest) →
      (∀ r, (scan_best w ls l nbest rbest uw).2.1 = some r →
          ls r = false ∧ (∃ b ∈ pre ++ l, b.x = EAction.Reduce r)
          ∧ (scan_best w ls l nbest rbest uw).1 = reduce_count (pre ++ l) r)
      ∧ ((scan_best w ls l nbest rbest uw).2.1 = none →
          (scan_best w ls l nbest rbest uw).1 = 0)
      ∧ (∀ r', ls r' = false → (∃ b ∈ pre ++ l, b.x = EAction.Reduce r') →
          reduce_count (pre ++ l) r' ≤ (scan_best w ls l nbest rbest uw).1)
  | [], pre, nbest, rbest, uw, h1, h2, h3 => by
    simp only [scan_best, List.append_nil] at h1 h3 ⊢
    exact ⟨h1, h2, h3⟩
  | a :: l, pre, nbest, rbest, uw, h1, h2, h3 => by
    have happ : pre ++ a :: l = (pre ++ [a]) ++ l := by simp
    have h1x : ∀ r, rbest = some r → ls r = false
        ∧ (∃ b ∈ pre ++ [a], b.x = EAction.Reduce r)
        ∧ nbest = reduce_count ((pre ++ [a]) ++ l) r := by
      intro r hr
      rcases h1 r hr with ⟨hA, ⟨b, hb, hbx⟩, hC⟩
      exact ⟨hA, ⟨b, List.mem_append_left [a] hb, hbx⟩, by rw [← happ]; exact hC⟩
    have h3x : (∀ r', ls r' = false → a.x ≠ EAction.Reduce r') →
        ∀ r', ls r' = false → (∃ b ∈ pre ++ [a], b.x = EAction.Reduce r') →
          reduce_count ((pre ++ [a]) ++ l) r' ≤ nbest := by
      rintro hna r' hr' ⟨b, hb, hbx⟩
      rw [← happ]
      rcases List.mem_append.mp hb with hb | hb
      · exact h3 r' hr' ⟨b, hb, hbx⟩
      · rw [List.mem_singleton.mp hb] at hbx
        exact absurd hbx (hna r' hr')
    by_cases hsh : ∃ st, a.x = EAction.Shift st
    · rcases hsh with ⟨st, hax⟩
      rw [scan_best_cons_shift w ls hax, happ]
      exact scan_best_spec w ls l (pre ++ [a]) nbest rbest _ h1x h2
        (h3x (fun r' _ hc => by rw [hax] at hc; exact EAction.noConfusion hc))
    · by_cases hrd : ∃ r0, a.x = EAction.Reduce r0
      · rcases hrd with ⟨r0, hax⟩
        rw [scan_best_cons_reduce w ls hax, happ]
        by_cases hls : ls r0 = true
        · rw [if_pos hls]
          refine scan_best_spec w ls l (pre ++ [a]) nbest rbest uw h1x h2 (h3x ?_)
          intro r' hr' hc
          rw [hax] at hc
          have hrr : r0 = r' := by simpa using hc
          rw [hrr] at hls
          rw [hr'] at hls
          exact absurd hls (by simp)
        · have hlsf : ls r0 = false := by simpa using hls
          rw [if_neg hls]
          by_cases hrb : rbest = some r0
          · rw [if_pos hrb]
            refine scan_best_spec w ls l (pre ++ [a]) nbest rbest uw h1x h2 ?_
            rintro r' hr' ⟨b, hb, hbx⟩
            rcases List.mem_append.mp hb with hb | hb
            · rw [← happ]
              exact h3 r' hr' ⟨b, hb, hbx⟩
            · rw [List.mem_singleton.mp hb, hax] at hbx
              have hrr : r0 = r' := by simpa using hbx
              rw [← hrr]
              rw [← happ]
              exact le_of_eq (h1 r0 hrb).2.2.symm
          · rw [if_neg hrb]
            have hcr : count_reduces rbest r0 l = reduce_count l r0 :=
              count_reduces_eq l rbest r0 hrb
            by_cases hgt : 1 + count_reduces rbest r0 l > nbest
            · rw [if_pos hgt]
              have hnopre : ∀ b ∈ pre, b.x ≠ EAction.Reduce r0 := by
                intro b hb hbx
                have hle := h3 r0 hlsf ⟨b, hb, hbx⟩
                rw [happ, reduce_count_middle, if_pos hax] at hle
                omega
              have hpre0 : reduce_count pre r0 = 0 := reduce_count_zero pre r0 hnopre
              refine scan_best_spec w ls l (pre ++ [a])
                (1 + count_reduces rbest r0 l) (some r0) uw ?_ ?_ ?_
              · intro r hr
                have hrr : r0 = r := by simpa using hr
                rw [← hrr]
                refine ⟨hlsf,
                  ⟨a, List.mem_append_right pre (List.mem_singleton.mpr rfl), hax⟩, ?_⟩
                rw [reduce_count_middle, if_pos hax, hpre0, hcr]
                omega
              · intro hc
                exact Option.noConfusion hc
              · rintro r' hr' ⟨b, hb, hbx⟩
                rcases List.mem_append.mp hb with hb | hb
                · have hle := h3 r' hr' ⟨b, hb, hbx⟩
                  rw [happ] at hle
                  omega
                · rw [List.mem_singleton.mp hb, hax] at hbx
                  have hrr : r0 = r' := by simpa using hbx
                  rw [← hrr]
                  rw [reduce_count_middle, if_pos hax, hpre0, hcr]
                  omega
            · rw [if_neg hgt]
              refine scan_best_spec w ls l (pre ++ [a]) nbest rbest uw h1x h2 ?_
              rintro r' hr' ⟨b, hb, hbx⟩
              rcases List.mem_append.mp hb with hb | hb
              · rw [← happ]
                exact h3 r' hr' ⟨b, hb, hbx⟩
              · rw [List.mem_singleton.mp hb, hax] at hbx
                have hrr : r0 = r' := by simpa using hbx
                rw [← hrr]
                by_cases hex : ∃ c ∈ pre, c.x = EAction.Reduce r0
                · rw [← happ]
                  exact h3 r0 hlsf hex
                · push_neg at hex
                  have hpre0 : reduce_count pre r0 = 0 := reduce_count_zero pre r0 hex
                  rw [reduce_count_middle, if_pos hax, hpre0]
                  omega
      · rw [scan_best_cons_other w ls (fun st hc => hsh ⟨st, hc⟩)
            (fun r0 hc => hrd ⟨r0, hc⟩), happ]
        exact scan_best_spec w ls l (pre ++ [a]) nbest rbest uw h1x h2
          (h3x (fun r' _ hc => hrd ⟨r', hc⟩))

theorem split_first_reduce_spec :
    ∀ (ap : List Action) (r : Nat) (pre : List Action) (apbest : Action) (post : List Action),
      split_first_reduce r ap = some (pre, apbest, post) →
      ap = pre ++ apbest :: post ∧ (∀ b ∈ pre, b.x ≠ EAction.Reduce r)
       ∧ apbest.x = EAction.Reduce r
  | [], _, _, _, _, h => by simp [split_first_reduce] at h
  | a :: rest, r, pre, apbest, post, h => by
    by_cases hx : a.x = EAction.Reduce r
    · rw [split_first_reduce, if_pos hx, Option.some_inj] at h
      injection h with hA h
      injection h with hB hC
      rw [← hA, ← hB, ← hC]
      exact ⟨rfl, by simp, hx⟩
    · rcases hrec : split_first_reduce r rest with _ | ⟨⟨p1, pb, ps⟩⟩
      · rw [split_first_reduce, if_neg hx, hrec] at h
        simp at h
      · rw [split_first_reduce, if_neg hx, hrec, Option.map_some', Option.some_inj] at h
        injection h with hA h
        injection h with hB hC
        rcases split_first_reduce_spec rest r p1 pb ps hrec with ⟨hr1, hr2, hr3⟩
        rw [← hA, ← hB, ← hC]
        refine ⟨by rw [hr1]; rfl, ?_, hr3⟩
        intro b hb
        rcases List.mem_cons.mp hb with rfl | hb
        · exact hx
        · exact hr2 b hb

theorem split_first_reduce_isSome :
    ∀ (ap : List Action) (r : Nat), (∃ a ∈ ap, a.x = EAction.Reduce r) →
      (split_first_reduce r ap).isSome
  | [], _, h => by simp at h
  | a :: rest, r, h => by
    by_cases hx : a.x = EAction.Reduce r
    · rw [split_first_reduce, if_pos hx]
      rfl
    · rw [split_first_reduce, if_neg hx]
      rcases h with ⟨b, hb, hbx⟩
      rcases List.mem_cons.mp hb with rfl | hb
      · exact absurd hbx hx
      · have := split_first_reduce_isSome rest r ⟨b, hb, hbx⟩
        rcases hrec : split_first_reduce r rest with _ | p
        · rw [hrec] at this
          exact absurd this (by simp)
        · rfl

instance : IsTotal Action (fun a b => action_le a b = true) := ⟨by
  intro a b
  simp only [action_le, Bool.or_eq_true, Bool.and_eq_true, decide_eq_true_eq]
  omega⟩

instance : IsTrans Action (fun a b => action_le a b = true) := ⟨by
  intro a b c hab hbc
  simp only [action_le, Bool.or_eq_true, Bool.and_eq_true, decide_eq_true_eq] at *
  omega⟩

theorem sort_actions_perm (l : List Action) : (sort_actions l).Perm l :=
  List.perm_insertionSort _ l

theorem sort_actions_sorted (l : List Action) :
    (sort_actions l).Pairwise (fun a b => a.sp ≤ b.sp) := by
  have h := List.sorted_insertionSort (fun a b => action_le a b = true) l
  exact h.imp (fun hab => by
    simp only [action_le, Bool.or_eq_true, Bool.and_eq_true, decide_eq_true_eq] at hab
    omega)

theorem compress_state_skip {w : Option Nat} {ls : Nat → Bool} {d : Nat} {ap : List Action}
    (h : (scan_best w ls ap 0 none false).1 < 1
      ∨ (scan_best w ls ap 0 none false).2.2 = true) :
    compress_state w ls d ap = ap := by
  simp only [compress_state]
  rw [if_pos h]

theorem compress_state_go {w : Option Nat} {ls : Nat → Bool} {d : Nat} {ap : List Action}
    {r : Nat} {pre : List Action} {apbest : Action} {post : List Action}
    (hcond : ¬((scan_best w ls ap 0 none false).1 < 1
      ∨ (scan_best w ls ap 0 none false).2.2 = true))
    (hsome : (scan_best w ls ap 0 none false).2.1 = some r)
    (hsplit : split_first_reduce r ap = some (pre, apbest, post)) :
    compress_state w ls d ap
      = sort_actions (pre ++ { apbest with sp := d } :: post.map (mark_not_used r)) := by
  simp only [compress_state]
  rw [if_neg hcond, hsome]
  show (match split_first_reduce r ap with
    | none => sort_actions ap
    | some (pre, apbest, post) =>
      sort_actions (pre ++ { apbest with sp := d } :: post.map (mark_not_used r))) = _
  rw [hsplit]

/-- C4: per-state default-reduction compression.  If no `Reduce` on a
non-start rule exists (frequency below 1) or the wildcard token occurs
among the state's shift lookaheads, the state's actions are left exactly
as they were.  Otherwise some rule `r` of maximal reduce count among
non-start rules is chosen; the state splits as `pre ++ apbest :: post`
with `apbest` the first reduce on `r` and no reduce on `r` in `pre`; the
result re-sorts (a permutation, ordered by lookahead index) the list in
which `apbest`'s lookahead was replaced by the `{default}` symbol and
every later reduce on `r` was marked `NotUsed`. -/
theorem c4_compress_tables (wildcard : Option Nat) (lhs_start : Nat → Bool) (def_sym : Nat)
    (ap : List Action) :
    ((¬ (∃ r, eligible lhs_start ap r) ∨ wildcard_in_shifts wildcard ap = true) →
      compress_state wildcard lhs_start def_sym ap = ap)
    ∧ ((∃ r, eligible lhs_start ap r) → wildcard_in_shifts wildcard ap = false →
      ∃ r pre apbest post,
        eligible lhs_start ap r
        ∧ (∀ r', eligible lhs_start ap r' → reduce_count ap r' ≤ reduce_count ap r)
        ∧ ap = pre ++ apbest :: post
        ∧ (∀ b ∈ pre, b.x ≠ EAction.Reduce r)
        ∧ apbest.x = EAction.Reduce r
        ∧ compress_state wildcard lhs_start def_sym ap
            = sort_actions (pre ++ { apbest with sp := def_sym }
                :: post.map (mark_not_used r))
        ∧ (compress_state wildcard lhs_start def_sym ap).Perm
            (pre ++ { apbest with sp := def_sym } :: post.map (mark_not_used r))
        ∧ (compress_state wildcard lhs_start def_sym ap).Pairwise
            (fun a b => a.sp ≤ b.sp)) := by
  have hspec := scan_best_spec wildcard lhs_start ap [] 0 none false
    (fun r hr => Option.noConfusion hr) (fun _ => rfl)
    (fun r' _ hex => by rcases hex with ⟨b, hb, _⟩; exact absurd hb (List.not_mem_nil b))
  simp only [List.nil_append] at hspec
  have huw := scan_best_uw wildcard lhs_start ap 0 none false
  simp only [Bool.false_or] at huw
  constructor
  · rintro (hne | hwc)
    · apply compress_state_skip
      left
      rcases hs : (scan_best wildcard lhs_start ap 0 none false).2.1 with _ | r
      · rw [hspec.2.1 hs]
        omega
      · exfalso
        rcases hspec.1 r hs with ⟨hlsf, hmem, _⟩
        exact hne ⟨r, hmem, hlsf⟩
    · apply compress_state_skip
      right
      rw [huw]
      exact hwc
  · intro hex hwf
    rcases hex with ⟨r0, ⟨hmem0, hls0⟩⟩
    rcases hs : (scan_best wildcard lhs_start ap 0 none false).2.1 with _ | r
    · exfalso
      have h0 := hspec.2.1 hs
      have hle := hspec.2.2 r0 hls0 hmem0
      have hpos := reduce_count_pos ap r0 hmem0
      omega
    · rcases hspec.1 r hs with ⟨hlsf, hmem, hcnt⟩
      have hcond : ¬((scan_best wildcard lhs_start ap 0 none false).1 < 1
          ∨ (scan_best wildcard lhs_start ap 0 none false).2.2 = true) := by
        rintro (hlt | hww)
        · have hle := hspec.2.2 r hlsf hmem
          have hpos := reduce_count_pos ap r hmem
          omega
        · rw [huw, hwf] at hww
          exact absurd hww (by simp)
      have hisSome := split_first_reduce_isSome ap r hmem
      rcases hsp : split_first_reduce r ap with _ | ⟨⟨pre, apbest, post⟩⟩
      · rw [hsp] at hisSome
        exact absurd hisSome (by simp)
      · rcases split_first_reduce_spec ap r pre apbest post hsp with ⟨hdecomp, hpre, hbest⟩
        have hgo := compress_state_go (d := def_sym) hcond hs hsp
        refine ⟨r, pre, apbest, post, ⟨hmem, hlsf⟩, ?_, hdecomp, hpre, hbest, hgo, ?_, ?_⟩
        · intro r' ⟨hmem', hls'⟩
          have := hspec.2.2 r' hls' hmem'
          omega
        · rw [hgo]
          exact sort_actions_perm _
        · rw [hgo]
          exact sort_actions_sorted _

/-- C4 (witness): `c4_compress_tables` on a state whose single action
shifts the wildcard token — compression leaves it unchanged. -/
theorem c4_witness :
    compress_state (some 5) (fun _ => false) 9 [⟨5, EAction.Shift 1⟩]
      = [⟨5, EAction.Shift 1⟩] :=
  (c4_compress_tables (some 5) (fun _ => false) 9 [⟨5, EAction.Shift 1⟩]).1
    (Or.inr (by decide))

/-- C8 (counterexample): with two distinct value types in the grammar,
the computed `types` map has two entries, and two admissible `HashMap`
enumeration orders of that same map (both permutations of its content)
emit the `YYMinorType` variants in different textual order — the two
byte sequences differ, refuting byte-identity of re-runs.  (The `dt_num`
tags themselves agree: they are assigned by first-use order, not by
iteration order.) -/
theorem c8_counterexample :
    (assign_dt_nums [some "u32", some "bool"] []).2 = [("u32", 1), ("bool", 2)]
    ∧ List.Perm [("u32", 1), ("bool", 2)] [("u32", 1), ("bool", 2)]
    ∧ List.Perm [("bool", 2), ("u32", 1)] [("u32", 1), ("bool", 2)]
    ∧ minor_type_variants [("u32", 1), ("bool", 2)]
        ≠ minor_type_variants [("bool", 2), ("u32", 1)] := by
  refine ⟨rfl, by decide, by decide, ?_⟩
  intro h
  have := List.head?_eq_head (l := minor_type_variants [("u32", 1), ("bool", 2)]) (by decide)
  simp only [minor_type_variants, List.map_cons, List.head?] at h ⊢
  exact absurd (congrArg List.head? h) (by decide)

/-- C8 (amended): the emitted `YYMinorType` variant collection is
determined by the declarations up to enumeration order: any two
admissible `HashMap` enumeration orders of the same `types` map emit the
same multiset of variant token runs.  Byte-for-byte identity of the
emitted source across runs does not hold (see the counterexample): the
variant listing follows the per-instance randomized `HashMap` iteration
order, an ordering decision not determined by symbol or rule indices. -/
theorem c8_variant_multiset_deterministic
    (types o1 o2 : List (String × Nat))
    (h1 : o1.Perm types) (h2 : o2.Perm types) :
    (minor_type_variants o1).Perm (minor_type_variants o2) :=
  ((h1.map _).trans (h2.map _).symm)

/-- C8 (witness): `c8_variant_multiset_deterministic` on the two-entry
map of the counterexample. -/
theorem c8_witness :
    (minor_type_variants [("bool", 2), ("u32", 1)]).Perm
      (minor_type_variants [("u32", 1), ("bool", 2)]) :=
  c8_variant_multiset_deterministic [("u32", 1), ("bool", 2)]
    [("bool", 2), ("u32", 1)] [("u32", 1), ("bool", 2)] (by decide) (by decide)

/-! ### C2 / C6: soundness of the packed action table -/

theorem slotAtN_writeSlot_self : ∀ (t : ActTab) (k : Nat) (v : LookaheadAction),
    slotAtN (writeSlot t k v) k = some v
  | [], 0, _ => rfl
  | [], k + 1, v => slotAtN_writeSlot_self [] k v
  | _ :: _, 0, _ => rfl
  | _ :: t, k + 1, v => slotAtN_writeSlot_self t k v

theorem slotAtN_writeSlot_ne : ∀ (t : ActTab) (k j : Nat) (v : LookaheadAction),
    k ≠ j → slotAtN (writeSlot t k v) j = slotAtN t j
  | [], 0, 0, _, h => absurd rfl h
  | [], 0, _ + 1, _, _ => rfl
  | [], _ + 1, 0, _, _ => rfl
  | [], k + 1, j + 1, v, h => slotAtN_writeSlot_ne [] k j v (fun hk => h (by rw [hk]))
  | _ :: _, 0, 0, _, h => absurd rfl h
  | _ :: _, 0, _ + 1, _, _ => rfl
  | _ :: _, _ + 1, 0, _, _ => rfl
  | _ :: t, k + 1, j + 1, v, h => slotAtN_writeSlot_ne t k j v (fun hk => h (by rw [hk]))

theorem slotAtN_some_lt : ∀ (t : ActTab) (k : Nat) (a : LookaheadAction),
    slotAtN t k = some a → k < t.length
  | [], _, _, h => Option.noConfusion h
  | _ :: _, 0, _, _ => Nat.succ_pos _
  | _ :: t, k + 1, a, h => Nat.succ_lt_succ (slotAtN_some_lt t k a h)

theorem slotAt_nonneg_eq (tab : ActTab) (k : Int) (h : 0 ≤ k) :
    slotAt tab k = slotAtN tab k.toNat := by
  unfold slotAt
  rw [if_neg (not_lt.mpr h)]

theorem slotAt_natCast (tab : ActTab) (k : Nat) : slotAt tab (k : Int) = slotAtN tab k := by
  rw [slotAt_nonneg_eq tab _ (Int.natCast_nonneg k)]
  simp

theorem slotAt_some_nonneg {tab : ActTab} {k : Int} {a : LookaheadAction}
    (h : slotAt tab k = some a) : 0 ≤ k := by
  by_contra hneg
  simp only [slotAt] at h
  rw [if_pos (by omega)] at h
  exact Option.noConfusion h

theorem slotAt_writeSlot_self (tab : ActTab) (k : Int) (h : 0 ≤ k) (v : LookaheadAction) :
    slotAt (writeSlot tab k.toNat v) k = some v := by
  simp only [slotAt, if_neg (not_lt.mpr h)]
  exact slotAtN_writeSlot_self tab k.toNat v

theorem slotAt_writeSlot_ne (tab : ActTab) (kN : Nat) (k : Int) (v : LookaheadAction)
    (h : (kN : Int) ≠ k) : slotAt (writeSlot tab kN v) k = slotAt tab k := by
  by_cases hk : k < 0
  · simp only [slotAt, if_pos hk]
  · simp only [slotAt, if_neg hk]
    exact slotAtN_writeSlot_ne tab kN k.toNat v (by omega)

theorem writeSlot_of_eq : ∀ (t : ActTab) (k : Nat) (v : LookaheadAction),
    slotAtN t k = some v → writeSlot t k v = t
  | [], _, _, h => Option.noConfusion h
  | s :: t, 0, v, h => by
    have hs : s = some v := h
    subst hs
    rfl
  | s :: t, k + 1, v, h => by
    show s :: writeSlot t k v = s :: t
    rw [writeSlot_of_eq t k v h]

theorem insertAt_cons (tab : ActTab) (v : LookaheadAction) (rest : List LookaheadAction)
    (minLh i : Nat) :
    insertAt tab (v :: rest) minLh i
      = insertAt (writeSlot tab ((v.lookahead : Int) + ((i : Int) - minLh)).toNat v)
          rest minLh i := rfl

/-- The insertion loop leaves every slot outside the transaction's
addressed keys unchanged. -/
theorem insertAt_untouched (row : List LookaheadAction) : ∀ (tab : ActTab) (minLh i : Nat)
    (k : Int),
    (∀ jla ∈ row, minLh ≤ jla.lookahead) →
    (∀ jla ∈ row, (jla.lookahead : Int) + ((i : Int) - minLh) ≠ k) →
    slotAt (insertAt tab row minLh i) k = slotAt tab k := by
  induction row with
  | nil => intro tab minLh i k _ _; rfl
  | cons v rest ih =>
    intro tab minLh i k hmin hne
    rw [insertAt_cons,
      ih _ _ _ _ (fun j hj => hmin j (List.mem_cons_of_mem _ hj))
        (fun j hj => hne j (List.mem_cons_of_mem _ hj))]
    have h1 : minLh ≤ v.lookahead := hmin v (List.mem_cons_self _ _)
    have h2 : (v.lookahead : Int) + ((i : Int) - minLh) ≠ k :=
      hne v (List.mem_cons_self _ _)
    exact slotAt_writeSlot_ne tab _ k v (by omega)

/-- After the insertion loop, every transaction entry sits at its key
`lookahead + (i - min_lookahead)`. -/
theorem insertAt_mem (row : List LookaheadAction) : ∀ (tab : ActTab) (minLh i : Nat),
    row.Pairwise (fun x y => x.lookahead < y.lookahead) →
    (∀ jla ∈ row, minLh ≤ jla.lookahead) →
    ∀ jla ∈ row, slotAt (insertAt tab row minLh i)
      ((jla.lookahead : Int) + ((i : Int) - minLh)) = some jla := by
  induction row with
  | nil => intro tab minLh i _ _ jla hj; exact absurd hj (List.not_mem_nil _)
  | cons v rest ih =>
    intro tab minLh i hsort hmin jla hj
    rcases List.mem_cons.mp hj with rfl | hjr
    · rw [insertAt_cons]
      have hmin' : ∀ j ∈ rest, minLh ≤ j.lookahead :=
        fun j hjr => hmin j (List.mem_cons_of_mem _ hjr)
      have hne' : ∀ j ∈ rest, (j.lookahead : Int) + ((i : Int) - minLh)
          ≠ (jla.lookahead : Int) + ((i : Int) - minLh) := by
        intro j hjr hEq
        have hlt : jla.lookahead < j.lookahead := (List.pairwise_cons.mp hsort).1 j hjr
        omega
      rw [insertAt_untouched rest _ minLh i _ hmin' hne']
      have h1 : minLh ≤ jla.lookahead := hmin jla (List.mem_cons_self _ _)
      have hk : (0 : Int) ≤ (jla.lookahead : Int) + ((i : Int) - minLh) := by omega
      exact slotAt_writeSlot_self tab ((jla.lookahead : Int) + ((i : Int) - minLh)) hk jla
    · rw [insertAt_cons]
      exact ih _ minLh i (List.pairwise_cons.mp hsort).2
        (fun j hjr => hmin j (List.mem_cons_of_mem _ hjr)) jla hjr

/-- When every transaction entry already matches the table (the reuse
branch), the insertion loop rewrites each slot with its current value
and the table is unchanged. -/
theorem insertAt_id (row : List LookaheadAction) : ∀ (tab : ActTab) (minLh i : Nat),
    (∀ jla ∈ row, slotAt tab ((jla.lookahead : Int) + ((i : Int) - minLh)) = some jla) →
    insertAt tab row minLh i = tab := by
  induction row with
  | nil => intro tab _ _ _; rfl
  | cons v rest ih =>
    intro tab minLh i hall
    rw [insertAt_cons]
    have hv := hall v (List.mem_cons_self _ _)
    have h0 : (0 : Int) ≤ (v.lookahead : Int) + ((i : Int) - minLh) := slotAt_some_nonneg hv
    have hw : writeSlot tab ((v.lookahead : Int) + ((i : Int) - minLh)).toNat v = tab := by
      apply writeSlot_of_eq
      rw [← slotAt_nonneg_eq tab _ h0]
      exact hv
    rw [hw]
    exact ih tab minLh i (fun j hjr => hall j (List.mem_cons_of_mem _ hjr))

/-- A successful reuse scan found an offset where every transaction entry
already matches the table. -/
theorem findReuse_some (tab : ActTab) (row : List LookaheadAction) (minLh minAct i : Nat)
    (h : findReuse tab row minLh minAct = some i) :
    ∀ jla ∈ row, slotAt tab ((jla.lookahead : Int) - minLh + i) = some jla := by
  have hp := List.find?_some h
  have hp' : (match slotAtN tab i with
      | none => false
      | some a =>
        decide (a.lookahead = minLh) && decide (a.action = minAct)
          && rowMatchesAt tab row minLh i
          && decide (strangerCount tab minLh i = row.length)) = true := hp
  rcases hsl : slotAtN tab i with _ | a
  · rw [hsl] at hp'
    exact absurd hp' (by simp)
  · rw [hsl] at hp'
    simp only [Bool.and_eq_true] at hp'
    have hr : (row.all (fun jla =>
        decide (slotAt tab ((jla.lookahead : Int) - minLh + i) = some jla))) = true :=
      hp'.1.2
    intro jla hj
    exact of_decide_eq_true (List.all_eq_true.mp hr jla hj)

/-- The fresh scan either found a hole where every transaction entry
lands on an empty slot, or fell through to appending at the end. -/
theorem findFresh_spec (tab : ActTab) (row : List LookaheadAction) (minLh maxLh : Nat) :
    (∀ jla ∈ row, slotAt tab ((jla.lookahead : Int) - minLh
        + (findFresh tab row minLh maxLh : Int)) = none)
    ∨ findFresh tab row minLh maxLh = tab.length := by
  rcases hf : (List.range (tab.length + maxLh)).find? (fun (i : Nat) =>
      row.all (fun jla => (slotAt tab ((jla.lookahead : Int) - minLh + i)).isNone)
        && !hasStranger tab 0 ((minLh : Int) - i)) with _ | i
  · right
    simp only [findFresh]
    rw [hf]
  · left
    have heq : findFresh tab row minLh maxLh = i := by
      simp only [findFresh]
      rw [hf]
    rw [heq]
    have hp := List.find?_some hf
    have hp' : (row.all (fun jla =>
          (slotAt tab ((jla.lookahead : Int) - minLh + i)).isNone)
        && !hasStranger tab 0 ((minLh : Int) - i)) = true := hp
    simp only [Bool.and_eq_true] at hp'
    intro jla hj
    exact Option.isNone_iff_eq_none.mp (List.all_eq_true.mp hp'.1 jla hj)

/-- `insert_action_set` on a non-empty row reduces to an `insertAt` at
the offset chosen by the reuse scan or, failing that, the fresh scan. -/
theorem insert_action_set_cases (tab : ActTab) (first : LookaheadAction)
    (rest : List LookaheadAction) :
    ∃ i : Nat,
      insert_action_set tab (first :: rest)
        = (insertAt tab (first :: rest) first.lookahead i, (i : Int) - first.lookahead)
      ∧ (findReuse tab (first :: rest) first.lookahead first.action = some i
         ∨ (findReuse tab (first :: rest) first.lookahead first.action = none
            ∧ i = findFresh tab (first :: rest) first.lookahead
                (((first :: rest).getLastD first).lookahead))) := by
  rcases hfr : findReuse tab (first :: rest) first.lookahead first.action with _ | i
  · refine ⟨findFresh tab (first :: rest) first.lookahead
        (((first :: rest).getLastD first).lookahead), ?_, Or.inr ⟨rfl, rfl⟩⟩
    simp only [insert_action_set]
    rw [hfr]
  · refine ⟨i, ?_, Or.inl rfl⟩
    simp only [insert_action_set]
    rw [hfr]

/-- Inserting a transaction never disturbs an occupied slot: the reuse
branch rewrites identical values, and the fresh branch only writes to
empty slots or beyond the current end of the table. -/
theorem insert_action_set_preserve (tab : ActTab) (row : List LookaheadAction)
    (hv : ValidRow row) (k : Nat) (la : LookaheadAction)
    (h : slotAtN tab k = some la) :
    slotAtN (insert_action_set tab row).1 k = some la := by
  rcases row with _ | ⟨first, rest⟩
  · exact absurd rfl hv.1
  · obtain ⟨i, heq, hcase⟩ := insert_action_set_cases tab first rest
    rw [heq]
    have hmin : ∀ j ∈ first :: rest, first.lookahead ≤ j.lookahead := by
      intro j hj
      rcases List.mem_cons.mp hj with rfl | hjr
      · exact Nat.le_refl _
      · exact Nat.le_of_lt ((List.pairwise_cons.mp hv.2).1 j hjr)
    rcases hcase with hfr | ⟨hfr, hi⟩
    · have hmatch := findReuse_some tab (first :: rest) first.lookahead first.action i hfr
      have hid : insertAt tab (first :: rest) first.lookahead i = tab := by
        apply insertAt_id
        intro jla hj
        have hm := hmatch jla hj
        have harith : (jla.lookahead : Int) + ((i : Int) - first.lookahead)
            = (jla.lookahead : Int) - first.lookahead + i := by ring
        rw [harith]
        exact hm
      rw [hid]
      exact h
    · have hne : ∀ jla ∈ first :: rest,
          (jla.lookahead : Int) + ((i : Int) - first.lookahead) ≠ (k : Int) := by
        rcases findFresh_spec tab (first :: rest) first.lookahead
            (((first :: rest).getLastD first).lookahead) with hempty | hlen
        · rw [← hi] at hempty
          intro jla hj hEq
          have hnone := hempty jla hj
          have harith : (jla.lookahead : Int) - first.lookahead + (i : Int) = (k : Int) := by
            omega
          rw [harith, slotAt_natCast, h] at hnone
          exact Option.noConfusion hnone
        · intro jla hj hEq
          have h1 := hmin jla hj
          have h2 := slotAtN_some_lt tab k la h
          have h3 : i = tab.length := hi.trans hlen
          omega
      have hunt := insertAt_untouched (first :: rest) tab first.lookahead i (k : Int) hmin hne
      rw [slotAt_natCast, slotAt_natCast] at hunt
      show slotAtN (insertAt tab (first :: rest) first.lookahead i) k = some la
      rw [hunt]
      exact h

/-- After `insert_action_set`, every entry of the inserted row sits at
`lookahead + returned offset`. -/
theorem insert_action_set_post (tab : ActTab) (row : List LookaheadAction)
    (hv : ValidRow row) :
    ∀ jla ∈ row, slotAt (insert_action_set tab row).1
      ((jla.lookahead : Int) + (insert_action_set tab row).2) = some jla := by
  rcases row with _ | ⟨first, rest⟩
  · exact absurd rfl hv.1
  · obtain ⟨i, heq, _⟩ := insert_action_set_cases tab first rest
    rw [heq]
    have hmin : ∀ j ∈ first :: rest, first.lookahead ≤ j.lookahead := by
      intro j hj
      rcases List.mem_cons.mp hj with rfl | hjr
      · exact Nat.le_refl _
      · exact Nat.le_of_lt ((List.pairwise_cons.mp hv.2).1 j hjr)
    intro jla hj
    exact insertAt_mem (first :: rest) tab first.lookahead i hv.2 hmin jla hj

theorem insertAll_cons (tab : ActTab) (row : List LookaheadAction)
    (rows : List (List LookaheadAction)) :
    insertAll tab (row :: rows)
      = ((insertAll (insert_action_set tab row).1 rows).1,
         (insert_action_set tab row).2
           :: (insertAll (insert_action_set tab row).1 rows).2) := rfl

/-- Occupied slots survive the whole insertion sequence. -/
theorem insertAll_preserve (rows : List (List LookaheadAction)) : ∀ (tab : ActTab),
    (∀ r ∈ rows, ValidRow r) →
    ∀ (k : Nat) (la : LookaheadAction), slotAtN tab k = some la →
      slotAtN (insertAll tab rows).1 k = some la := by
  induction rows with
  | nil => intro tab _ k la h; exact h
  | cons row rows ih =>
    intro tab hv k la h
    show slotAtN (insertAll (insert_action_set tab row).1 rows).1 k = some la
    exact ih _ (fun r hr => hv r (List.mem_cons_of_mem _ hr)) k la
      (insert_action_set_preserve tab row (hv row (List.mem_cons_self _ _)) k la h)

theorem slotAt_preserved_insertAll (rows : List (List LookaheadAction)) (tab : ActTab)
    (hv : ∀ r ∈ rows, ValidRow r) (k : Int) (la : LookaheadAction)
    (h : slotAt tab k = some la) : slotAt (insertAll tab rows).1 k = some la := by
  have h0 : 0 ≤ k := slotAt_some_nonneg h
  rw [slotAt_nonneg_eq _ _ h0] at h ⊢
  exact insertAll_preserve rows tab hv k.toNat la h

/-- The central packing invariant: in the final table, every inserted
row's entry sits at `lookahead + offset`. -/
theorem insertAll_sound (rows : List (List LookaheadAction)) : ∀ (tab : ActTab),
    (∀ r ∈ rows, ValidRow r) →
    ∀ p ∈ rows.zip (insertAll tab rows).2, ∀ jla ∈ p.1,
      slotAt (insertAll tab rows).1 ((jla.lookahead : Int) + p.2) = some jla := by
  induction rows with
  | nil => intro tab _ p hp; exact absurd hp (List.not_mem_nil _)
  | cons row rows ih =>
    intro tab hv p hp jla hj
    rw [insertAll_cons] at hp
    simp only [List.zip_cons_cons] at hp
    rcases List.mem_cons.mp hp with rfl | hp'
    · have hpost := insert_action_set_post tab row (hv row (List.mem_cons_self _ _)) jla hj
      show slotAt (insertAll (insert_action_set tab row).1 rows).1
        ((jla.lookahead : Int) + (insert_action_set tab row).2) = some jla
      exact slotAt_preserved_insertAll rows _
        (fun r hr => hv r (List.mem_cons_of_mem _ hr)) _ jla hpost
    · show slotAt (insertAll (insert_action_set tab row).1 rows).1
        ((jla.lookahead : Int) + p.2) = some jla
      exact ih _ (fun r hr => hv r (List.mem_cons_of_mem _ hr)) p hp' jla hj

theorem yy_action_getD : ∀ (t : ActTab) (k : Nat) (a : LookaheadAction) (e : Nat),
    slotAtN t k = some a → (yy_action_table t e).getD k e = a.action
  | [], _, _, _, h => Option.noConfusion h
  | s :: _, 0, a, e, h => by
    have hs : s = some a := h
    subst hs
    rfl
  | _ :: t, k + 1, a, e, h => yy_action_getD t k a e h

theorem yy_lookahead_getD : ∀ (t : ActTab) (k : Nat) (a : LookaheadAction) (n : Nat),
    slotAtN t k = some a → (yy_lookahead_table t n).getD k n = a.lookahead
  | [], _, _, _, h => Option.noConfusion h
  | s :: _, 0, a, n, h => by
    have hs : s = some a := h
    subst hs
    rfl
  | _ :: t, k + 1, a, n, h => yy_lookahead_getD t k a n h

/-- C2: for every row of (lookahead, action) entries inserted into the
flat packed action table with returned offset `o`, and every entry
`(lh, act)` of that row, the index `lh + o` is non-negative and in range
of the final table, and the emitted tables satisfy
`YY_ACTION[lh + o] = act` and `YY_LOOKAHEAD[lh + o] = lh`.  The rows are
required to satisfy `insert_action_set`'s documented contract: non-empty
(the assert at mod.rs:397) and sorted by lookahead with one action per
lookahead (mod.rs:399). -/
theorem c2_packing_soundness (tab0 : ActTab) (rows : List (List LookaheadAction))
    (errAct nsym : Nat) (hv : ∀ r ∈ rows, ValidRow r) :
    ∀ p ∈ rows.zip (insertAll tab0 rows).2, ∀ jla ∈ p.1,
      0 ≤ (jla.lookahead : Int) + p.2
      ∧ ((jla.lookahead : Int) + p.2).toNat < (insertAll tab0 rows).1.length
      ∧ (yy_action_table (insertAll tab0 rows).1 errAct).getD
          ((jla.lookahead : Int) + p.2).toNat errAct = jla.action
      ∧ (yy_lookahead_table (insertAll tab0 rows).1 nsym).getD
          ((jla.lookahead : Int) + p.2).toNat nsym = jla.lookahead := by
  intro p hp jla hj
  have hs := insertAll_sound rows tab0 hv p hp jla hj
  have h0 : 0 ≤ (jla.lookahead : Int) + p.2 := slotAt_some_nonneg hs
  rw [slotAt_nonneg_eq _ _ h0] at hs
  exact ⟨h0, slotAtN_some_lt _ _ _ hs, yy_action_getD _ _ _ _ hs,
    yy_lookahead_getD _ _ _ _ hs⟩

/-- C2 (witness): `c2_packing_soundness` on the two single-entry rows
`[(0, 5)]` and `[(1, 6)]` inserted into an empty table. -/
theorem c2_witness :
    (0 : Int) ≤ ((1 : Nat) : Int) + 0
    ∧ (((1 : Nat) : Int) + 0).toNat < (insertAll [] [[⟨0, 5⟩], [⟨1, 6⟩]]).1.length
    ∧ (yy_action_table (insertAll [] [[⟨0, 5⟩], [⟨1, 6⟩]]).1 9).getD
        (((1 : Nat) : Int) + 0).toNat 9 = 6
    ∧ (yy_lookahead_table (insertAll [] [[⟨0, 5⟩], [⟨1, 6⟩]]).1 9).getD
        (((1 : Nat) : Int) + 0).toNat 9 = 1 :=
  c2_packing_soundness [] [[⟨0, 5⟩], [⟨1, 6⟩]] 9 9 (by decide)
    ([⟨1, 6⟩], 0) (by decide) ⟨1, 6⟩ (by decide)

/-- C6 (counterexample): the literal claim fails: when a state's
transaction duplicates an earlier one, the reuse scan (mod.rs:410-449)
deliberately returns the existing offset, so two states' rows claim the
very same occupied slot.  Two identical single-entry rows both receive
offset 0 and both claim slot 0. -/
theorem c6_counterexample :
    (insertAll [] [[⟨0, 7⟩], [⟨0, 7⟩]]).2 = [0, 0]
    ∧ (slotAtN (insertAll [] [[⟨0, 7⟩], [⟨0, 7⟩]]).1 0).isSome = true
    ∧ (∀ s : Fin 2,
        row_claims (insertAll [] [[⟨0, 7⟩], [⟨0, 7⟩]]).1
          ([[⟨0, 7⟩], [⟨0, 7⟩]].get s)
          ((insertAll [] [[⟨0, 7⟩], [⟨0, 7⟩]]).2.getD (s : Nat) 0) 0 = true) := by
  decide

/-- C6 (amended): slots may be claimed by several rows — the reuse scan
shares an offset exactly when the transactions coincide — but sharing is
always consistent: whenever two inserted rows address the same final
slot through entries `e1` and `e2`, those entries are equal, so neither
row's behaviour is disturbed by the other. -/
theorem c6_shared_slots_consistent (tab0 : ActTab) (rows : List (List LookaheadAction))
    (hv : ∀ r ∈ rows, ValidRow r)
    (p q : List LookaheadAction × Int)
    (hp : p ∈ rows.zip (insertAll tab0 rows).2)
    (hq : q ∈ rows.zip (insertAll tab0 rows).2)
    (e1 e2 : LookaheadAction) (h1 : e1 ∈ p.1) (h2 : e2 ∈ q.1)
    (hk : (e1.lookahead : Int) + p.2 = (e2.lookahead : Int) + q.2) :
    e1 = e2 := by
  have ha := insertAll_sound rows tab0 hv p hp e1 h1
  have hb := insertAll_sound rows tab0 hv q hq e2 h2
  rw [hk] at ha
  exact Option.some.inj (ha.symm.trans hb)

/-- C6 (witness): `c6_shared_slots_consistent` on the counterexample's
pair of identical rows, whose entries share slot 0. -/
theorem c6_witness : (⟨0, 7⟩ : LookaheadAction) = ⟨0, 7⟩ :=
  c6_shared_slots_consistent [] [[⟨0, 7⟩], [⟨0, 7⟩]] (by decide)
    ([⟨0, 7⟩], 0) ([⟨0, 7⟩], 0) (by decide) (by decide)
    ⟨0, 7⟩ ⟨0, 7⟩ (by decide) (by decide) (by decide)

end Pomelo
